import Mathlib

/-!
# Verification of ppfchecklist's sqlite position/rank engine

Shallow embedding of `src/ppfchecklist/database.py` (class `DatabaseSqlite3`).
The four sqlite tables (Status, List, ListStatus, Entry) become lists of row
structures; each method of the class becomes a Lean function over a `DB`
state.  Fallible Python code (IndexError on `[0]`, NameError on the
unimported `datetime`, sqlite3.IntegrityError) is modelled with
`Except PyErr`.

Conventions used throughout, matching sqlite semantics in the source:
* sqlite `NULL` is `Option.none`; SQL comparisons with NULL are false
  (three-valued logic collapses to false in a WHERE clause);
* the `UNIQUE(position,date,name,status,list)` constraint on Entry only
  fires when the two rows agree on all five columns and none of the
  nullable columns is NULL (sqlite treats NULLs as distinct in UNIQUE
  indexes);
* `rowid` values assigned by sqlite on INSERT are `max rowid + 1`.
-/

namespace PPF

/-- Row of the `Status` table: `rowid` plus columns `name`, `position`,
`orderByPosition` (database.py lines 64-70). -/
structure StatusRow where
  rowid : Nat
  name : String
  position : Int
  orderByPosition : Bool
deriving Repr, DecidableEq

/-- Row of the `List` table: `rowid` plus columns `name`, `position`,
`active` (database.py lines 76-82). -/
structure ListRow where
  rowid : Nat
  name : String
  position : Int
  active : Bool
deriving Repr, DecidableEq

/-- Row of the `ListStatus` junction table (database.py lines 88-96). -/
structure ListStatusRow where
  rowid : Nat
  list : Nat
  status : Nat
deriving Repr, DecidableEq

/-- Row of the `Entry` table: `rowid` plus columns `name`, `position`
(nullable INTEGER), `date` (nullable TEXT), `status`, `list`
(database.py lines 114-124). -/
structure EntryRow where
  rowid : Nat
  name : String
  position : Option Int
  date : Option String
  status : Nat
  list : Nat
deriving Repr, DecidableEq

/-- The whole sqlite database state: the four tables, each as a list of
rows in insertion (rowid) order. -/
structure DB where
  statuses : List StatusRow
  lists : List ListRow
  listStatuses : List ListStatusRow
  entries : List EntryRow
deriving Repr, DecidableEq

/-- Python exceptions that the embedded methods can raise. -/
inductive PyErr where
  | indexError
  | nameError
  | integrityError
deriving Repr, DecidableEq

/-- Drop leading whitespace characters from a character list. -/
def dropLeading : List Char → List Char
  | [] => []
  | c :: cs => if c.isWhitespace then dropLeading cs else c :: cs

/-- Python's `str.strip()` as used on form names: remove whitespace from
both ends (written structurally so that it evaluates by reduction). -/
def pyStrip (s : String) : String :=
  String.mk (dropLeading ((dropLeading s.data.reverse).reverse))

/-- Python's `sys.maxsize` (database.py line 9 imports it; 2^63 - 1). -/
def pyMaxsize : Int := 9223372036854775807

/-- Stable insertion of `x` into a list already sorted by `key`:
`x` goes before the first element with a strictly larger key, so equal
keys keep their original relative order. -/
def insertByKey {α : Type} (key : α → Int) (x : α) : List α → List α
  | [] => [x]
  | y :: ys => if key y ≤ key x then y :: insertByKey key x ys else x :: y :: ys

/-- Stable sort by an integer key, modelling SQL `ORDER BY key ASC`
(sqlite returns equal keys in table order for these simple scans). -/
def sortByKey {α : Type} (key : α → Int) : List α → List α
  | [] => []
  | x :: xs => insertByKey key x (sortByKey key xs)

/-- Is entry `e` in the (list `t`, status `s`) partition? Mirrors the
`List.rowid = Entry.list AND Status.rowid = Entry.status` join conditions
that scope every position-engine statement. -/
def inPart (t s : Nat) (e : EntryRow) : Bool := e.list == t && e.status == s

/-- The rows of one (list, status) partition, in table order. -/
def DB.partEntries (db : DB) (t s : Nat) : List EntryRow :=
  db.entries.filter (inPart t s)

/-- The `position` column of one partition, in table order. -/
def DB.posList (db : DB) (t s : Nat) : List (Option Int) :=
  (db.partEntries t s).map (fun e => e.position)

/-- SQL `MAX` over a column: NULL (`none`) on the empty set, otherwise the
maximum of the non-NULL values (NULLs are ignored by the aggregate). -/
def sqlMax : List Int → Option Int
  | [] => none
  | x :: xs => some (xs.foldl max x)

/-- `SELECT MAX(Entry.position) ...` for one partition followed by the
Python `if max_pos is None: max_pos = 0` (database.py lines 427-443). -/
def maxPos (l : List (Option Int)) : Int :=
  (sqlMax (l.filterMap id)).getD 0

/-- Result type of `DatabaseSqlite3.table` (`SELECT rowid, name FROM List
...`): a sqlite Row holding exactly the two selected columns; the Python
`==` on such rows compares these column values. -/
structure TableRef where
  rowid : Nat
  name : String
deriving Repr, DecidableEq

/-- `DatabaseSqlite3.table` with a string argument: first `List` row with
the given name, in `ORDER BY position ASC` order (database.py 290-295);
`none` models the IndexError of `[0]` on an empty result. -/
def DB.tableByName (db : DB) (t : String) : Option TableRef :=
  ((sortByKey (fun l => l.position) db.lists).find? (fun l => l.name == t)).map
    (fun l => ⟨l.rowid, l.name⟩)

/-- `DatabaseSqlite3.table` with an int argument: lookup by rowid. -/
def DB.tableByRowid (db : DB) (r : Nat) : Option TableRef :=
  ((sortByKey (fun l => l.position) db.lists).find? (fun l => l.rowid == r)).map
    (fun l => ⟨l.rowid, l.name⟩)

/-- `DatabaseSqlite3.status` (database.py 297-304): despite taking the
list name it runs `SELECT rowid, * FROM Status ORDER BY position` — every
status row, ignoring both the argument and the ListStatus junction. -/
def DB.statusQ (db : DB) (_table : String) : List StatusRow :=
  sortByKey (fun s => s.position) db.statuses

/-- The status lookup done by `insert` and `update`:
`[s for s in self.status(table) if s["rowid"] == sid][0]`;
`none` models the IndexError when no status has that rowid. -/
def DB.findStatusQ (db : DB) (table : String) (sid : Nat) : Option StatusRow :=
  ((db.statusQ table).filter (fun s => s.rowid == sid)).head?

/-! ## PositionEngine: shifts and position resolution -/

/-- Effect of `_increment` (database.py 345-363) on one position value:
`Entry.position >= p` gains 1; a NULL position never satisfies the SQL
comparison and is untouched. -/
def shiftGe (p : Int) : Option Int → Option Int
  | some q => if p ≤ q then some (q + 1) else some q
  | none => none

/-- Effect of `_decrement` (database.py 365-383) on one position value:
`Entry.position > threshold` loses 1.  The threshold is the deleted
entry's own (possibly NULL) position; any comparison with NULL is false,
so a NULL threshold shifts nothing. -/
def shiftGt (threshold : Option Int) : Option Int → Option Int
  | some q =>
      match threshold with
      | some p => if p < q then some (q - 1) else some q
      | none => some q
  | none => none

/-- Effect of `_increment_range(greater, lesser)` (database.py 385-403)
on one position value: `position >= greater AND position < lesser` gains
1. -/
def shiftRangeUp (greater lesser : Int) : Option Int → Option Int
  | some q => if greater ≤ q && q < lesser then some (q + 1) else some q
  | none => none

/-- Effect of `_decrement_range(lesser, greater)` (database.py 405-423)
on one position value: `position <= lesser AND position > greater` loses
1. -/
def shiftRangeDown (lesser greater : Int) : Option Int → Option Int
  | some q => if q ≤ lesser && greater < q then some (q - 1) else some q
  | none => none

/-- Apply a position transformation to every entry of one partition,
leaving every other column and every other partition alone.  This is the
common shape of the four UPDATE statements of the position engine. -/
def DB.mapPart (db : DB) (t s : Nat) (f : Option Int → Option Int) : DB :=
  { db with
    entries := db.entries.map (fun e =>
      if inPart t s e then { e with position := f e.position } else e) }

/-- `DatabaseSqlite3._decrement(table_id, status_id, position)`. -/
def DB.decrement (db : DB) (t s : Nat) (p : Option Int) : DB := db.mapPart t s (shiftGt p)

/-- The position part of `_increment`'s WHERE clause: `position >= ?`
(NULL never satisfies the comparison). -/
def whereGe (p : Int) : Option Int → Bool
  | some q => decide (p ≤ q)
  | none => false

/-- The position part of `_increment_range`'s WHERE clause:
`position >= greater AND position < lesser`. -/
def whereRangeUp (greater lesser : Int) : Option Int → Bool
  | some q => decide (greater ≤ q) && decide (q < lesser)
  | none => false

/-- The position part of `_decrement_range`'s WHERE clause:
`position <= lesser AND position > greater`. -/
def whereRangeDown (lesser greater : Int) : Option Int → Bool
  | some q => decide (q ≤ lesser) && decide (greater < q)
  | none => false

/-- The requested-position argument of `_calc_position`.  At the HTTP
boundary it is a string, internally an int or `None`; the code treats
`""`, `"None"` and `None` alike (`position not in ("", "None", None)`),
collapsed here into `absent`; any numeric value is `val n`. -/
inductive PosReq where
  | absent
  | val (n : Int)
deriving Repr, DecidableEq

/-- Parsed `Option Int` field (update's old_pos / pos) as a
`_calc_position` argument: `None` is one of the sentinels. -/
def toReq : Option Int → PosReq
  | none => PosReq.absent
  | some n => PosReq.val n

/-- `DatabaseSqlite3._calc_position` (database.py 425-446): returns
`(res, max_pos)` where `max_pos` is the partition's SQL MAX (0 when
NULL), the request defaults to `sys.maxsize` when sentinel, is clamped
below by 1, kept if it is at most `max_pos`, and otherwise becomes
`max_pos + 1`. -/
def DB.calcPosition (db : DB) (t s : Nat) (req : PosReq) : Int × Int :=
  let max_pos := maxPos (db.posList t s)
  let pos := max 1 (match req with | PosReq.absent => pyMaxsize | PosReq.val n => n)
  let res := if pos ≤ max_pos then pos else max_pos + 1
  (res, max_pos)

/-! ## Entry writes -/

/-- The sqlite `UNIQUE(position,date,name,status,list)` check between an
existing row `e0` and a candidate row `e`: it rejects only when the five
columns coincide and the nullable `position` and `date` are both non-NULL
on both sides — sqlite treats NULLs as distinct inside UNIQUE indexes, so
any NULL makes the tuples distinct. -/
def entryConflict (e0 e : EntryRow) : Bool :=
  match e0.position, e.position, e0.date, e.date with
  | some p0, some p, some d0, some d =>
      p0 == p && d0 == d && e0.name == e.name && e0.status == e.status && e0.list == e.list
  | _, _, _, _ => false

/-- The UNIQUE check sqlite runs when one Entry row is rewritten during
an UPDATE: the row's new version is compared against every other row's
current version. -/
def updConflict (e : EntryRow) (others : List EntryRow) : Bool :=
  others.any (fun e0 => entryConflict e0 e)

/-- One position-engine UPDATE statement, executed as sqlite does: the
Entry table is scanned in stored (rowid) order, each row matching the
WHERE predicate `c` has its position rewritten by `f` and is immediately
checked against the other rows in their current state (the
already-updated prefix `acc` and the not-yet-visited remainder); a fully
non-NULL duplicate tuple raises sqlite3.IntegrityError, and the default
ABORT resolution rolls the whole statement back, so the error carries no
partial state. -/
def updateScan (c : EntryRow → Bool) (f : Option Int → Option Int) :
    List EntryRow → List EntryRow → Except PyErr (List EntryRow)
  | acc, [] => Except.ok acc.reverse
  | acc, e :: rest =>
      if c e then
        if updConflict { e with position := f e.position } (acc ++ rest) then
          Except.error PyErr.integrityError
        else updateScan c f ({ e with position := f e.position } :: acc) rest
      else updateScan c f (e :: acc) rest

/-- A position-engine UPDATE over partition (t, s): the WHERE clause is
the partition keys plus a position condition `c`, the SET clause is `f`
on the position. -/
def DB.mapPartChecked (db : DB) (t s : Nat) (c : Option Int → Bool)
    (f : Option Int → Option Int) : Except PyErr DB :=
  (updateScan (fun e => inPart t s e && c e.position) f [] db.entries).map
    (fun l => { db with entries := l })

/-- `DatabaseSqlite3._increment(table_id, status_id, position)`
(database.py 345-363): `UPDATE Entry SET position = position + 1 WHERE
status = ? AND list = ? AND position >= ?`, with the Entry UNIQUE
constraint checked row by row. -/
def DB.increment (db : DB) (t s : Nat) (p : Int) : Except PyErr DB :=
  db.mapPartChecked t s (whereGe p) (shiftGe p)

/-- `DatabaseSqlite3._increment_range(table_id, status_id, greater,
lesser)` (database.py 385-403), with the Entry UNIQUE constraint checked
row by row. -/
def DB.incrementRange (db : DB) (t s : Nat) (greater lesser : Int) :
    Except PyErr DB :=
  db.mapPartChecked t s (whereRangeUp greater lesser) (shiftRangeUp greater lesser)

/-- `DatabaseSqlite3._decrement_range(table_id, status_id, lesser,
greater)` (database.py 405-423), with the Entry UNIQUE constraint checked
row by row. -/
def DB.decrementRange (db : DB) (t s : Nat) (lesser greater : Int) :
    Except PyErr DB :=
  db.mapPartChecked t s (whereRangeDown lesser greater) (shiftRangeDown lesser greater)

/-- The rowid sqlite assigns to a fresh Entry row: one more than the
largest existing rowid. -/
def DB.freshRowid (db : DB) : Nat :=
  (db.entries.foldl (fun m e => max m e.rowid) 0) + 1

/-- `INSERT INTO Entry VALUES (?,?,?,?,?)` with the UNIQUE constraint:
appends the row, or raises sqlite3.IntegrityError on a (fully non-NULL)
duplicate tuple. -/
def DB.insertEntry (db : DB) (name : String) (pos : Option Int)
    (date : Option String) (status list : Nat) : Except PyErr DB :=
  let e : EntryRow := ⟨db.freshRowid, name, pos, date, status, list⟩
  if db.entries.any (fun e0 => entryConflict e0 e) then Except.error PyErr.integrityError
  else Except.ok { db with entries := db.entries ++ [e] }

/-- The `date` field of an insert form.  `insert` runs
`form.get("date", "") == ""`: a missing key or an empty string selects
the "default to today" branch; a `None` value (as passed by `update`'s
move path) and a non-empty string do not. -/
inductive DateIn where
  | missing
  | empty
  | null
  | val (s : String)
deriving Repr, DecidableEq

/-- An `update` date value (`Option String`, `""` already collapsed to
`None` by `form["date"] or None`) as seen by `insert`'s
`form.get("date", "")` check. -/
def dateInOfOpt : Option String → DateIn
  | none => DateIn.null
  | some s => if s == "" then DateIn.empty else DateIn.val s

/-- Parsed form for `insert(form, table)`. -/
structure InsertForm where
  status : Nat
  name : String
  position : PosReq
  date : DateIn
deriving Repr, DecidableEq

/-- `DatabaseSqlite3.insert` (database.py 448-475).  Resolves the status
(IndexError when the rowid is unknown) and the list by name, then either
resolves a position (shifting up when it lands inside the existing range)
with date NULL, or — for a date-ordered status — keeps position NULL and
the supplied date.  A blank/missing date reaches
`datetime.now().strftime(...)`, but `datetime` is never imported in
database.py, so that branch raises NameError. -/
def DB.insert (db : DB) (form : InsertForm) (table : String) : Except PyErr DB :=
  match db.findStatusQ table form.status with
  | none => Except.error PyErr.indexError
  | some st =>
    match db.tableByName table with
    | none => Except.error PyErr.indexError
    | some tr =>
      let name := pyStrip form.name
      if st.orderByPosition then
        let pm := db.calcPosition tr.rowid st.rowid form.position
        match (if pm.1 ≤ pm.2 then db.increment tr.rowid st.rowid pm.1
               else Except.ok db) with
        | Except.error e => Except.error e
        | Except.ok db1 => db1.insertEntry name (some pm.1) none st.rowid tr.rowid
      else
        match form.date with
        | DateIn.missing => Except.error PyErr.nameError
        | DateIn.empty => Except.error PyErr.nameError
        | DateIn.null => db.insertEntry name none none st.rowid tr.rowid
        | DateIn.val s => db.insertEntry name none (some s) st.rowid tr.rowid

/-- Parsed form for `delete(form)`. -/
structure DeleteForm where
  rowid : Nat
  name : String
deriving Repr, DecidableEq

/-- `DELETE FROM Entry WHERE rowid = ?` (database.py 564). -/
def DB.removeRow (db : DB) (r : Nat) : DB :=
  { db with entries := db.entries.filter (fun x => x.rowid != r) }

/-- `DatabaseSqlite3.delete` (database.py 543-564).  Looks the entry up
by rowid joined to its List and Status rows (IndexError when any of the
three is missing); on a name match closes the partition's gap with
`_decrement` at the entry's stored position and removes the row; on a
mismatch does nothing. -/
def DB.delete (db : DB) (form : DeleteForm) : Except PyErr DB :=
  match db.entries.find? (fun e => e.rowid == form.rowid) with
  | none => Except.error PyErr.indexError
  | some e =>
    match db.lists.find? (fun l => l.rowid == e.list),
          db.statuses.find? (fun s => s.rowid == e.status) with
    | some _, some _ =>
        if e.name == pyStrip form.name then
          Except.ok ((db.decrement e.list e.status e.position).removeRow form.rowid)
        else Except.ok db
    | _, _ => Except.error PyErr.indexError

/-- `UPDATE Entry SET position = ?, name = ?, date = ? WHERE rowid = ?`
(database.py 533-540). -/
def DB.setEntry (db : DB) (r : Nat) (pos : Int) (name : String)
    (date : Option String) : DB :=
  { db with
    entries := db.entries.map (fun e =>
      if e.rowid == r then { e with position := some pos, name := name, date := date }
      else e) }

/-- Parsed form for `update(form, table)` (database.py 482-491):
positions with `"None"`/`""` parsed to `none`, dates with `or None`,
names raw (stripped inside). -/
structure UpdateForm where
  rowid : Nat
  table : Nat
  old_status : Nat
  status : Nat
  old_pos : Option Int
  pos : Option Int
  old_name : String
  name : String
  old_date : Option String
  date : Option String
deriving Repr, DecidableEq

/-- `DatabaseSqlite3.update` (database.py 477-541): no-op guard, then
cross-partition move as insert-into-destination followed by
delete-from-source, else same-partition reorder (resolve both positions,
cap the new one at the current max, range-shift — a statement that can
abort with sqlite3.IntegrityError when a shifted row collides with an
existing fully non-NULL tuple — and rewrite the row when anything
changed).  Returns the destination list's name. -/
def DB.update (db : DB) (form : UpdateForm) (table : String) :
    Except PyErr (String × DB) :=
  match db.tableByName table with
  | none => Except.error PyErr.indexError
  | some old_table =>
  match db.tableByRowid form.table with
  | none => Except.error PyErr.indexError
  | some new_table =>
  match db.findStatusQ table form.old_status with
  | none => Except.error PyErr.indexError
  | some old_status =>
  match db.findStatusQ table form.status with
  | none => Except.error PyErr.indexError
  | some new_status =>
    let old_name := pyStrip form.old_name
    let new_name := pyStrip form.name
    let goto := new_table.name
    if old_table == new_table && old_status == new_status
        && form.old_pos == form.pos && form.old_date == form.date
        && old_name == new_name then
      Except.ok (goto, db)
    else if old_table != new_table || old_status != new_status then
      match db.insert ⟨new_status.rowid, new_name, toReq form.pos,
                       dateInOfOpt form.date⟩ new_table.name with
      | Except.error e => Except.error e
      | Except.ok db1 =>
        match db1.delete ⟨form.rowid, old_name⟩ with
        | Except.error e => Except.error e
        | Except.ok db2 => Except.ok (goto, db2)
    else
      let table_id := old_table.rowid
      let status_id := new_status.rowid
      let old_res := (db.calcPosition table_id status_id (toReq form.old_pos)).1
      let nm := db.calcPosition table_id status_id (toReq form.pos)
      let new_res := if nm.1 > nm.2 then nm.2 else nm.1
      match (if old_res > new_res then
               db.incrementRange table_id status_id new_res old_res
             else if old_res < new_res then
               db.decrementRange table_id status_id new_res old_res
             else Except.ok db) with
      | Except.error e => Except.error e
      | Except.ok db1 =>
        if old_res != new_res || old_name != new_name || form.old_date != form.date then
          Except.ok (goto, db1.setEntry form.rowid new_res new_name form.date)
        else Except.ok (goto, db1)

/-! ## BulkTransfer: download / upload -/

/-- The structure produced by `DatabaseSqlite3.download` (database.py
267-276): `{"sqlite": True}` plus a full dump (`SELECT rowid, * ...`) of
each of the four tables. -/
structure Snapshot where
  sqlite : Bool
  statusRows : List StatusRow
  listRows : List ListRow
  listStatusRows : List ListStatusRow
  entryRows : List EntryRow
deriving Repr, DecidableEq

/-- `DatabaseSqlite3.download`. -/
def DB.download (db : DB) : Snapshot :=
  ⟨true, db.statuses, db.lists, db.listStatuses, db.entries⟩

/-- `DatabaseSqlite3._upload_newstyle` (database.py 214-255), run against
the freshly dropped-and-recreated schema: every table is bulk-inserted
with explicit rowids.  The Status tuples are built as
`(s["rowid"], s["name"], s["rowid"], s["orderByPosition"])` — the second
`s["rowid"]` is fed into the `position` column, so each restored Status
row's position is its rowid, not the saved `s["position"]`. -/
def uploadNewstyle (snap : Snapshot) : DB :=
  { statuses := snap.statusRows.map (fun s =>
      { s with position := (s.rowid : Int) }),
    lists := snap.listRows,
    listStatuses := snap.listStatusRows,
    entries := snap.entryRows }

/-- `DatabaseSqlite3.upload` (database.py 257-265) applied to a
snapshot-shaped payload: the current database is dropped and the schema
recreated, then `data.get("sqlite", False)` dispatches.  A snapshot with
`sqlite = true` (every `download` output) takes the `_upload_newstyle`
path; `none` marks the legacy-dict path, which a snapshot-shaped payload
cannot meaningfully take (legacy payloads are modelled by
`uploadOldstyle` below). -/
def DB.upload (_db : DB) (snap : Snapshot) : Option DB :=
  if snap.sqlite then some (uploadNewstyle snap) else none

/-- One record of a legacy (tinydb-style) flat snapshot: a name, the
single signed legacy position, and an optional date. -/
structure LegacyValue where
  name : String
  position : Int
  date : Option String
deriving Repr, DecidableEq

/-- One legacy table: its name and its records, in iteration order. -/
structure LegacyTable where
  table : String
  values : List LegacyValue
deriving Repr, DecidableEq

/-- `SELECT rowid FROM Status WHERE name = ?` followed by `[0]`. -/
def DB.findStatusByName (db : DB) (n : String) : Option StatusRow :=
  db.statuses.find? (fun s => s.name == n)

/-- `INSERT INTO Entry ...` wrapped in `try/except sqlite3.IntegrityError:
pass` (database.py 206-212): a duplicate-tuple conflict is swallowed and
the store left as it was. -/
def DB.insertEntrySkip (db : DB) (name : String) (pos : Option Int)
    (date : Option String) (status list : Nat) : DB :=
  match db.insertEntry name pos date status list with
  | Except.ok db1 => db1
  | Except.error _ => db

/-- The per-record body of `_upload_oldstyle`'s inner loop (database.py
183-212): the sign of the legacy position picks the status — positive
keeps the position under "Planned" and drops the date, zero goes to
"Done" and negative to "Dropped", both with position NULL and the date
kept.  The status lookups raise IndexError when the named status is
missing; the Entry insert skips duplicates. -/
def DB.oldstyleValue (db : DB) (table_id : Nat) (v : LegacyValue) :
    Except PyErr DB :=
  if 0 < v.position then
    match db.findStatusByName "Planned" with
    | none => Except.error PyErr.indexError
    | some st =>
        Except.ok (db.insertEntrySkip v.name (some v.position) none st.rowid table_id)
  else if v.position == 0 then
    match db.findStatusByName "Done" with
    | none => Except.error PyErr.indexError
    | some st =>
        Except.ok (db.insertEntrySkip v.name none v.date st.rowid table_id)
  else
    match db.findStatusByName "Dropped" with
    | none => Except.error PyErr.indexError
    | some st =>
        Except.ok (db.insertEntrySkip v.name none v.date st.rowid table_id)

/-- Fresh rowid for a List row. -/
def DB.freshListRowid (db : DB) : Nat :=
  (db.lists.foldl (fun m l => max m l.rowid) 0) + 1

/-- Fresh rowid for a ListStatus row. -/
def DB.freshListStatusRowid (db : DB) : Nat :=
  (db.listStatuses.foldl (fun m l => max m l.rowid) 0) + 1

/-- One iteration of `_upload_oldstyle`'s outer loop (database.py
160-212) for a non-`_default` table: insert the List row (the List table
has no uniqueness constraint, so on a fresh schema the IntegrityError
branch is dead), link it to every Status through ListStatus (duplicates
skipped via `except sqlite3.IntegrityError: pass` against
`UNIQUE (list, status)`), then load each record. -/
def DB.oldstyleTable (db : DB) (tbl_pos : Int) (t : LegacyTable) :
    Except PyErr DB :=
  let lid := db.freshListRowid
  let db1 : DB := { db with lists := db.lists ++ [⟨lid, t.table, tbl_pos, true⟩] }
  let db2 : DB := db1.statuses.foldl (fun d st =>
      if d.listStatuses.any (fun x => x.list == lid && x.status == st.rowid) then d
      else { d with
        listStatuses := d.listStatuses ++ [⟨d.freshListStatusRowid, lid, st.rowid⟩] }) db1
  t.values.foldlM (fun d v => DB.oldstyleValue d lid v) db2

/-- `DatabaseSqlite3._upload_oldstyle` (database.py 154-212), run against
the freshly recreated schema: tables are loaded in iteration order with
display positions 1, 2, …, the `_default` table skipped without consuming
a position. -/
def DB.uploadOldstyle (db : DB) (tables : List LegacyTable) : Except PyErr DB :=
  (tables.foldlM (fun (acc : Int × DB) t =>
      if t.table == "_default" then Except.ok acc
      else (DB.oldstyleTable acc.2 acc.1 t).map (fun d => (acc.1 + 1, d)))
    ((1 : Int), db)).map (fun acc => acc.2)

/-- `DatabaseSqlite3.upload` (database.py 257-265) on a legacy payload:
`data.get("sqlite", False)` is falsy, so after `_drop_database()` and
`_init_database()` the data goes through `_upload_oldstyle` — against
the freshly recreated schema, whose Status table is empty:
`_init_database` only creates bare tables (its ListStatus-seeding loop
at database.py 100-111 is commented out), and the only statements that
ever insert into Status live in `_upload_newstyle`, which this branch
does not run. -/
def uploadLegacy (tables : List LegacyTable) : Except PyErr DB :=
  DB.uploadOldstyle ⟨[], [], [], []⟩ tables

/-! ## The density invariant -/

/-- Dense ranking of one partition's position column: no NULLs, and each
rank 1, …, N (N = number of entries) occurs exactly once — spec invariant
2 / property P1. -/
def denseL (l : List (Option Int)) : Prop :=
  l.count none = 0 ∧
  ∀ k : Int, l.count (some k) = if 1 ≤ k ∧ k ≤ (l.length : Int) then 1 else 0

/-- Density of every position-ordered partition of the store ("for every
partition whose Status has orderByPosition = true"). -/
def AllDense (db : DB) : Prop :=
  ∀ S ∈ db.statuses, S.orderByPosition = true →
    ∀ t : Nat, denseL (db.posList t S.rowid)

/-- Well-formedness sqlite guarantees by construction: rowids are unique
within the Entry table and within the Status table. -/
def WF (db : DB) : Prop :=
  (db.entries.map (fun e => e.rowid)).Nodup ∧
  (db.statuses.map (fun s => s.rowid)).Nodup

/-! ## Pure counting lemmas for the shift primitives -/

theorem denseL_nil : denseL [] := by
  constructor
  · simp
  · intro k
    simp only [List.count_nil, List.length_nil, Nat.cast_zero]
    split_ifs <;> omega

theorem count_map_shiftGe (p k : Int)
    (l : List (Option Int)) :
      (l.map (shiftGe p)).count (some k) =
        (if k < p then l.count (some k) else 0) +
        (if p < k then l.count (some (k - 1)) else 0) := by
  induction l with
  | nil => simp
  | cons a t ih =>
      rcases a with _ | q
      · simpa [shiftGe, List.count_cons] using ih
      · simp only [List.map_cons, shiftGe, List.count_cons, ih, beq_iff_eq,
          Option.some.injEq, decide_eq_true_eq]
        split_ifs <;> simp only [Option.some.injEq] at * <;> omega

theorem count_map_shiftGtSome (p k : Int)
    (l : List (Option Int)) :
      (l.map (shiftGt (some p))).count (some k) =
        (if k ≤ p then l.count (some k) else 0) +
        (if p ≤ k then l.count (some (k + 1)) else 0) := by
  induction l with
  | nil => simp
  | cons a t ih =>
      rcases a with _ | q
      · simpa [shiftGt, List.count_cons] using ih
      · simp only [List.map_cons, shiftGt, List.count_cons, ih, beq_iff_eq,
          Option.some.injEq, decide_eq_true_eq]
        split_ifs <;> simp only [Option.some.injEq] at * <;> omega

theorem count_map_shiftRangeUp (g ls k : Int)
    (l : List (Option Int)) :
      (l.map (shiftRangeUp g ls)).count (some k) =
        (if g ≤ k ∧ k < ls then 0 else l.count (some k)) +
        (if g ≤ k - 1 ∧ k - 1 < ls then l.count (some (k - 1)) else 0) := by
  induction l with
  | nil => simp
  | cons a t ih =>
      rcases a with _ | q
      · simpa [shiftRangeUp, List.count_cons] using ih
      · simp only [List.map_cons, shiftRangeUp, List.count_cons, ih, beq_iff_eq,
          Option.some.injEq, Bool.and_eq_true, decide_eq_true_eq]
        split_ifs <;> simp only [Option.some.injEq] at * <;> omega

theorem count_map_shiftRangeDown (ls g k : Int)
    (l : List (Option Int)) :
      (l.map (shiftRangeDown ls g)).count (some k) =
        (if g < k ∧ k ≤ ls then 0 else l.count (some k)) +
        (if g < k + 1 ∧ k + 1 ≤ ls then l.count (some (k + 1)) else 0) := by
  induction l with
  | nil => simp
  | cons a t ih =>
      rcases a with _ | q
      · simpa [shiftRangeDown, List.count_cons] using ih
      · simp only [List.map_cons, shiftRangeDown, List.count_cons, ih, beq_iff_eq,
          Option.some.injEq, Bool.and_eq_true, decide_eq_true_eq]
        split_ifs <;> simp only [Option.some.injEq] at * <;> omega

/-- Every shift primitive sends NULL to NULL and non-NULL to non-NULL, so
the count of NULLs is untouched. -/
theorem count_none_map (f : Option Int → Option Int) (h0 : f none = none)
    (h1 : ∀ q : Int, f (some q) ≠ none)
    (l : List (Option Int)) : (l.map f).count none = l.count none := by
  induction l with
  | nil => simp
  | cons a t ih =>
      rcases a with _ | q
      · simpa [h0, List.count_cons] using ih
      · have hq := h1 q
        simp only [List.map_cons, List.count_cons, ih]
        rcases hf : f (some q) with _ | v
        · exact absurd hf hq
        · simp

theorem shiftGe_none_iff (p : Int) : ∀ q : Int, shiftGe p (some q) ≠ none := by
  intro q; simp only [shiftGe]; split_ifs <;> simp

theorem shiftGt_none_iff (p : Option Int) : ∀ q : Int, shiftGt p (some q) ≠ none := by
  intro q; simp only [shiftGt]; rcases p with _ | p' <;> simp <;> split_ifs <;> simp

theorem shiftRangeUp_none_iff (g ls : Int) :
    ∀ q : Int, shiftRangeUp g ls (some q) ≠ none := by
  intro q; simp only [shiftRangeUp]; split_ifs <;> simp

theorem shiftRangeDown_none_iff (ls g : Int) :
    ∀ q : Int, shiftRangeDown ls g (some q) ≠ none := by
  intro q; simp only [shiftRangeDown]; split_ifs <;> simp

/-- `_decrement` with a NULL threshold shifts nothing: both SQL
comparisons with NULL are false. -/
theorem map_shiftGt_none (l : List (Option Int)) : l.map (shiftGt none) = l := by
  induction l with
  | nil => rfl
  | cons a t ih => rcases a with _ | q <;> simp [shiftGt, ih]

/-! ## The SQL MAX of a dense partition -/

theorem le_foldl_max (x : Int) (xs : List Int) : x ≤ xs.foldl max x := by
  induction xs generalizing x with
  | nil => simp
  | cons y ys ih => exact le_trans (le_max_left x y) (ih (max x y))

theorem mem_le_foldl_max (xs : List Int) (y : Int) (hy : y ∈ xs) :
    ∀ x, y ≤ xs.foldl max x := by
  induction xs with
  | nil => cases hy
  | cons z zs ih =>
      intro x
      rcases List.mem_cons.1 hy with h | h
      · subst h
        exact le_trans (le_max_right x y) (le_foldl_max (max x y) zs)
      · exact ih h (max x z)

theorem foldl_max_le (xs : List Int) :
    ∀ x B, x ≤ B → (∀ y ∈ xs, y ≤ B) → xs.foldl max x ≤ B := by
  induction xs with
  | nil => intro x B hx _; simpa using hx
  | cons z zs ih =>
      intro x B hx hall
      refine ih (max x z) B (max_le hx (hall z (List.mem_cons_self z zs))) ?_
      intro y hy; exact hall y (List.mem_cons_of_mem z hy)

theorem foldl_max_cases (xs : List Int) :
    ∀ x, xs.foldl max x = x ∨ xs.foldl max x ∈ xs := by
  induction xs with
  | nil => intro x; left; rfl
  | cons z zs ih =>
      intro x
      rcases ih (max x z) with h | h
      · rcases max_choice x z with hm | hm
        · left; simpa [hm] using h
        · right; rw [List.foldl_cons, h, hm]; exact List.mem_cons_self z zs
      · right; exact List.mem_cons_of_mem z h

theorem mem_filterMap_id (l : List (Option Int)) (b : Int) :
    b ∈ l.filterMap id ↔ some b ∈ l := by
  simp [List.mem_filterMap]

theorem denseL_bounds {l : List (Option Int)} (h : denseL l) {p : Int}
    (hm : some p ∈ l) : 1 ≤ p ∧ p ≤ (l.length : Int) := by
  have hc := h.2 p
  have hpos : 0 < l.count (some p) := List.count_pos_iff.2 hm
  by_contra hcon
  rw [if_neg hcon] at hc
  omega

theorem denseL_mem {l : List (Option Int)} (h : denseL l) {p : Int}
    (h1 : 1 ≤ p) (h2 : p ≤ (l.length : Int)) : some p ∈ l := by
  have hc := h.2 p
  rw [if_pos ⟨h1, h2⟩] at hc
  exact List.count_pos_iff.1 (by omega)

theorem denseL_no_none {l : List (Option Int)} (h : denseL l) : none ∉ l :=
  List.count_eq_zero.1 h.1

/-- The SQL MAX of a dense partition is its size: a dense partition's
positions are exactly 1, …, N. -/
theorem maxPos_of_denseL {l : List (Option Int)} (h : denseL l) :
    maxPos l = (l.length : Int) := by
  rcases Nat.eq_zero_or_pos l.length with h0 | h0
  · rw [List.length_eq_zero.1 h0]
    rfl
  · have hL : some ((l.length : Int)) ∈ l :=
      denseL_mem h (by exact_mod_cast h0) le_rfl
    have hmem : ((l.length : Int)) ∈ l.filterMap id := (mem_filterMap_id l _).2 hL
    have hbound : ∀ y ∈ l.filterMap id, y ≤ (l.length : Int) := by
      intro y hy
      exact (denseL_bounds h ((mem_filterMap_id l y).1 hy)).2
    rcases hfm : l.filterMap id with _ | ⟨x, xs⟩
    · rw [hfm] at hmem; cases hmem
    · rw [hfm] at hmem hbound
      unfold maxPos
      rw [hfm]
      simp only [sqlMax, Option.getD_some]
      refine le_antisymm ?_ ?_
      · exact foldl_max_le xs x _ (hbound x (List.mem_cons_self x xs))
          (fun y hy => hbound y (List.mem_cons_of_mem x hy))
      · rcases List.mem_cons.1 hmem with hx | hx
        · rw [hx]; exact le_foldl_max x xs
        · exact mem_le_foldl_max xs _ hx x

/-! ## Density transfer along the shift primitives -/

/-- Inserting at an interior position `p`: shift everything at or above
`p` up, then append the new entry at `p`. -/
theorem denseL_insert_shift {l : List (Option Int)} {p : Int} (h : denseL l)
    (h1 : 1 ≤ p) (h2 : p ≤ (l.length : Int)) :
    denseL (l.map (shiftGe p) ++ [some p]) := by
  constructor
  · rw [List.count_append, count_none_map (shiftGe p) rfl (shiftGe_none_iff p) l, h.1]
    simp
  · intro k
    have hk := h.2 k
    have hk1 := h.2 (k - 1)
    rw [List.count_append, count_map_shiftGe]
    simp only [List.length_append, List.length_map, List.length_cons,
      List.length_nil, List.count_cons, List.count_nil, beq_iff_eq,
      Option.some.injEq, Nat.cast_add, Nat.cast_one]
    split_ifs at hk hk1 ⊢ <;> omega

/-- Appending at the end position `N + 1`: no shift needed. -/
theorem denseL_append_end {l : List (Option Int)} (h : denseL l) :
    denseL (l ++ [some ((l.length : Int) + 1)]) := by
  constructor
  · rw [List.count_append, h.1]
    simp
  · intro k
    have hk := h.2 k
    rw [List.count_append]
    simp only [List.length_append, List.length_cons, List.length_nil,
      List.count_cons, List.count_nil, beq_iff_eq, Option.some.injEq,
      Nat.cast_add, Nat.cast_one]
    split_ifs at hk ⊢ <;> omega

/-- Deleting the entry at position `p`: close the gap with the `> p`
decrement (which leaves the victim itself in place), then drop the
victim. -/
theorem denseL_delete {l₁ l₂ : List (Option Int)} {p : Int}
    (h : denseL (l₁ ++ some p :: l₂)) :
    denseL (l₁.map (shiftGt (some p)) ++ l₂.map (shiftGt (some p))) := by
  have hb := denseL_bounds h (show some p ∈ l₁ ++ some p :: l₂ by simp)
  have h0 := h.1
  simp only [List.count_append, List.count_cons, List.length_append,
    List.length_cons] at h0 hb
  constructor
  · rw [List.count_append,
      count_none_map (shiftGt (some p)) rfl (shiftGt_none_iff (some p)) l₁,
      count_none_map (shiftGt (some p)) rfl (shiftGt_none_iff (some p)) l₂]
    simp only [beq_iff_eq, reduceCtorEq, if_false] at h0
    omega
  · intro k
    have hk := h.2 k
    have hk1 := h.2 (k + 1)
    simp only [List.count_append, List.count_cons, List.length_append,
      List.length_cons, beq_iff_eq, Option.some.injEq, Nat.cast_add,
      Nat.cast_one] at hk hk1
    rw [List.count_append, count_map_shiftGtSome, count_map_shiftGtSome]
    simp only [List.length_append, List.length_map, Nat.cast_add]
    split_ifs at hk hk1 ⊢ <;> omega

/-- Same-partition move of the entry at `o` down to `n < o`: positions in
`[n, o)` shift up and the mover lands on `n`. -/
theorem denseL_reorder_up {l₁ l₂ : List (Option Int)} {o n : Int}
    (h : denseL (l₁ ++ some o :: l₂)) (h1 : 1 ≤ n) (h2 : n < o) :
    denseL (l₁.map (shiftRangeUp n o) ++ some n :: l₂.map (shiftRangeUp n o)) := by
  have hb := denseL_bounds h (show some o ∈ l₁ ++ some o :: l₂ by simp)
  have h0 := h.1
  simp only [List.count_append, List.count_cons, List.length_append,
    List.length_cons] at h0 hb
  constructor
  · rw [List.count_append, List.count_cons,
      count_none_map (shiftRangeUp n o) rfl (shiftRangeUp_none_iff n o) l₁,
      count_none_map (shiftRangeUp n o) rfl (shiftRangeUp_none_iff n o) l₂]
    simp only [beq_iff_eq, reduceCtorEq, if_false] at h0 ⊢
    omega
  · intro k
    have hk := h.2 k
    have hk1 := h.2 (k - 1)
    simp only [List.count_append, List.count_cons, List.length_append,
      List.length_cons, beq_iff_eq, Option.some.injEq, Nat.cast_add,
      Nat.cast_one] at hk hk1
    rw [List.count_append, List.count_cons, count_map_shiftRangeUp,
      count_map_shiftRangeUp]
    simp only [List.length_append, List.length_map, List.length_cons,
      beq_iff_eq, Option.some.injEq, Nat.cast_add, Nat.cast_one]
    split_ifs at hk hk1 ⊢ <;> omega

/-- Same-partition move of the entry at `o` up to `n > o`: positions in
`(o, n]` shift down and the mover lands on `n`. -/
theorem denseL_reorder_down {l₁ l₂ : List (Option Int)} {o n : Int}
    (h : denseL (l₁ ++ some o :: l₂)) (h1 : o < n)
    (h2 : n ≤ ((l₁ ++ some o :: l₂).length : Int)) :
    denseL (l₁.map (shiftRangeDown n o) ++ some n :: l₂.map (shiftRangeDown n o)) := by
  have hb := denseL_bounds h (show some o ∈ l₁ ++ some o :: l₂ by simp)
  have h0 := h.1
  simp only [List.count_append, List.count_cons, List.length_append,
    List.length_cons] at h0 hb h2
  constructor
  · rw [List.count_append, List.count_cons,
      count_none_map (shiftRangeDown n o) rfl (shiftRangeDown_none_iff n o) l₁,
      count_none_map (shiftRangeDown n o) rfl (shiftRangeDown_none_iff n o) l₂]
    simp only [beq_iff_eq, reduceCtorEq, if_false] at h0 ⊢
    omega
  · intro k
    have hk := h.2 k
    have hk1 := h.2 (k + 1)
    simp only [List.count_append, List.count_cons, List.length_append,
      List.length_cons, beq_iff_eq, Option.some.injEq, Nat.cast_add,
      Nat.cast_one] at hk hk1
    rw [List.count_append, List.count_cons, count_map_shiftRangeDown,
      count_map_shiftRangeDown]
    simp only [List.length_append, List.length_map, List.length_cons,
      beq_iff_eq, Option.some.injEq, Nat.cast_add, Nat.cast_one]
    split_ifs at hk hk1 ⊢ <;> omega

/-! ## Structural lemmas about the store operations -/

theorem inPart_iff (t s : Nat) (e : EntryRow) :
    inPart t s e = true ↔ e.list = t ∧ e.status = s := by
  simp [inPart]

theorem inPart_update_position (t s t' s' : Nat) (f : Option Int → Option Int)
    (e : EntryRow) :
    inPart t' s' (if inPart t s e then { e with position := f e.position } else e) =
      inPart t' s' e := by
  rcases Bool.eq_false_or_eq_true (inPart t s e) with h | h
  · rw [if_pos h]
    rfl
  · rw [if_neg (by simp [h])]

theorem partEntries_mapPart (db : DB) (t s t' s' : Nat)
    (f : Option Int → Option Int) :
    (db.mapPart t s f).partEntries t' s' =
      (db.partEntries t' s').map
        (fun e => if inPart t s e then { e with position := f e.position } else e) := by
  unfold DB.mapPart DB.partEntries
  simp only
  rw [List.filter_map]
  congr 1
  apply List.filter_congr
  intro e _
  exact inPart_update_position t s t' s' f e

theorem posList_mapPart_same (db : DB) (t s : Nat) (f : Option Int → Option Int) :
    (db.mapPart t s f).posList t s = (db.posList t s).map f := by
  unfold DB.posList
  rw [partEntries_mapPart, List.map_map, List.map_map]
  apply List.map_congr_left
  intro e he
  have hin : inPart t s e = true := (List.mem_filter.1 he).2
  simp [Function.comp, hin]

theorem posList_mapPart_ne (db : DB) (t s : Nat) (f : Option Int → Option Int)
    (t' s' : Nat) (h : t ≠ t' ∨ s ≠ s') :
    (db.mapPart t s f).posList t' s' = db.posList t' s' := by
  unfold DB.posList
  rw [partEntries_mapPart, List.map_map]
  apply List.map_congr_left
  intro e he
  have hin := (inPart_iff t' s' e).1 (List.mem_filter.1 he).2
  have hout : inPart t s e = false := by
    rcases h with h | h <;> simp [inPart, hin.1, hin.2] <;> omega
  simp [Function.comp, hout]

theorem partEntries_append (db : DB) (es : List EntryRow) (t s : Nat) :
    ({ db with entries := db.entries ++ es } : DB).partEntries t s =
      db.partEntries t s ++ es.filter (inPart t s) := by
  unfold DB.partEntries
  exact List.filter_append ..

theorem entryConflict_of_pos_none (e0 e : EntryRow) (h : e.position = none) :
    entryConflict e0 e = false := by
  unfold entryConflict
  rcases h0 : e0.position with _ | p0 <;> rcases hd : e0.date with _ | d0 <;>
    simp [h, h0, hd]

theorem entryConflict_of_date_none (e0 e : EntryRow) (h : e.date = none) :
    entryConflict e0 e = false := by
  unfold entryConflict
  rcases h0 : e0.position with _ | p0 <;> rcases hp : e.position with _ | p <;>
    rcases hd : e0.date with _ | d0 <;> simp [h, h0, hp, hd]

theorem insertEntry_ok_of_pos_none (db : DB) (name : String)
    (date : Option String) (st ls : Nat) :
    db.insertEntry name none date st ls =
      Except.ok { db with
        entries := db.entries ++ [⟨db.freshRowid, name, none, date, st, ls⟩] } := by
  have hnc : ¬((db.entries.any fun e0 =>
      entryConflict e0 ⟨db.freshRowid, name, none, date, st, ls⟩) = true) := by
    rw [List.any_eq_true]
    rintro ⟨e0, he0, hce⟩
    rw [entryConflict_of_pos_none e0 _ rfl] at hce
    cases hce
  simp only [DB.insertEntry]
  rw [if_neg hnc]

theorem insertEntry_ok_of_date_none (db : DB) (name : String)
    (pos : Option Int) (st ls : Nat) :
    db.insertEntry name pos none st ls =
      Except.ok { db with
        entries := db.entries ++ [⟨db.freshRowid, name, pos, none, st, ls⟩] } := by
  have hnc : ¬((db.entries.any fun e0 =>
      entryConflict e0 ⟨db.freshRowid, name, pos, none, st, ls⟩) = true) := by
    rw [List.any_eq_true]
    rintro ⟨e0, he0, hce⟩
    rw [entryConflict_of_date_none e0 _ rfl] at hce
    cases hce
  simp only [DB.insertEntry]
  rw [if_neg hnc]

theorem updateScan_ok (c : EntryRow → Bool) (f : Option Int → Option Int) :
    ∀ (l acc out : List EntryRow),
    updateScan c f acc l = Except.ok out →
    out = acc.reverse ++
      l.map (fun e => if c e then { e with position := f e.position } else e) := by
  intro l
  induction l with
  | nil =>
      intro acc out h
      simp only [updateScan] at h
      injection h with h
      subst h
      simp
  | cons e rest ih =>
      intro acc out h
      simp only [updateScan] at h
      by_cases hc : c e = true
      · rw [if_pos hc] at h
        by_cases hcf : updConflict { e with position := f e.position }
            (acc ++ rest) = true
        · rw [if_pos hcf] at h
          cases h
        · rw [if_neg hcf] at h
          rw [ih _ _ h, List.map_cons, if_pos hc]
          simp
      · rw [if_neg hc] at h
        rw [ih _ _ h, List.map_cons, if_neg hc]
        simp

theorem updateScan_dates_none (c : EntryRow → Bool) (f : Option Int → Option Int) :
    ∀ (l acc : List EntryRow),
    (∀ e ∈ l, c e = true → e.date = none) →
    updateScan c f acc l = Except.ok (acc.reverse ++
      l.map (fun e => if c e then { e with position := f e.position } else e)) := by
  intro l
  induction l with
  | nil =>
      intro acc _
      simp [updateScan]
  | cons e rest ih =>
      intro acc hd
      simp only [updateScan]
      by_cases hc : c e = true
      · rw [if_pos hc]
        have hdn : (({ e with position := f e.position } : EntryRow)).date = none :=
          hd e (List.mem_cons_self e rest) hc
        have hcf : updConflict { e with position := f e.position } (acc ++ rest) = false := by
          unfold updConflict
          rw [List.any_eq_false]
          intro e0 _
          simp [entryConflict_of_date_none e0 _ hdn]
        rw [hcf]
        rw [ih _ (fun x hx hcx => hd x (List.mem_cons_of_mem e hx) hcx)]
        rw [List.map_cons, if_pos hc]
        simp
      · rw [if_neg hc]
        rw [ih _ (fun x hx hcx => hd x (List.mem_cons_of_mem e hx) hcx)]
        rw [List.map_cons, if_neg hc]
        simp

theorem scanMap_eq_mapPart (db : DB) (t s : Nat) (c : Option Int → Bool)
    (f : Option Int → Option Int) (hfix : ∀ x, c x = false → f x = x) :
    db.entries.map (fun e => if (inPart t s e && c e.position) = true then
        { e with position := f e.position } else e) =
      (db.mapPart t s f).entries := by
  unfold DB.mapPart
  simp only []
  apply List.map_congr_left
  intro e _
  by_cases hP : inPart t s e = true
  · by_cases hcx : c e.position = true
    · simp [hP, hcx]
    · have hcF : c e.position = false := by
        rcases Bool.eq_false_or_eq_true (c e.position) with hh | hh
        · exact absurd hh hcx
        · exact hh
      rw [if_neg (by simp [hcF]), if_pos hP, hfix e.position hcF]
  · have hPF : inPart t s e = false := by
      rcases Bool.eq_false_or_eq_true (inPart t s e) with hh | hh
      · exact absurd hh hP
      · exact hh
    rw [if_neg (by simp [hPF]), if_neg (by simp [hPF])]

theorem mapPartChecked_ok {db : DB} {t s : Nat} {c : Option Int → Bool}
    {f : Option Int → Option Int} {db' : DB}
    (hfix : ∀ x, c x = false → f x = x)
    (h : db.mapPartChecked t s c f = Except.ok db') :
    db' = db.mapPart t s f := by
  unfold DB.mapPartChecked at h
  rcases hscan : updateScan (fun e => inPart t s e && c e.position) f [] db.entries
      with e1 | out
  · rw [hscan] at h
    cases h
  · rw [hscan] at h
    simp only [Except.map] at h
    injection h with h
    have hout := updateScan_ok _ f db.entries [] out hscan
    rw [List.reverse_nil, List.nil_append] at hout
    rw [← h]
    show ({ db with entries := out } : DB) = db.mapPart t s f
    rw [hout, scanMap_eq_mapPart db t s c f hfix]
    rfl

theorem mapPartChecked_dates_none (db : DB) (t s : Nat) (c : Option Int → Bool)
    (f : Option Int → Option Int) (hfix : ∀ x, c x = false → f x = x)
    (hd : ∀ e ∈ db.entries, inPart t s e = true → e.date = none) :
    db.mapPartChecked t s c f = Except.ok (db.mapPart t s f) := by
  unfold DB.mapPartChecked
  rw [updateScan_dates_none _ f db.entries []
    (fun e he hce => hd e he (by
      simp only [Bool.and_eq_true] at hce
      exact hce.1))]
  simp only [Except.map, List.reverse_nil, List.nil_append]
  congr 2
  exact scanMap_eq_mapPart db t s c f hfix

theorem whereGe_fix (p : Int) : ∀ x, whereGe p x = false → shiftGe p x = x := by
  intro x hx
  rcases x with _ | q
  · rfl
  · simp only [whereGe, decide_eq_false_iff_not] at hx
    simp [shiftGe, hx]

theorem whereRangeUp_fix (g l : Int) :
    ∀ x, whereRangeUp g l x = false → shiftRangeUp g l x = x := by
  intro x hx
  rcases x with _ | q
  · rfl
  · simp only [whereRangeUp, Bool.and_eq_false_iff, decide_eq_false_iff_not] at hx
    simp only [shiftRangeUp]
    rw [if_neg]
    simp only [Bool.and_eq_true, decide_eq_true_eq]
    rintro ⟨h1, h2⟩
    rcases hx with hx | hx <;> exact hx (by omega)

theorem whereRangeDown_fix (l g : Int) :
    ∀ x, whereRangeDown l g x = false → shiftRangeDown l g x = x := by
  intro x hx
  rcases x with _ | q
  · rfl
  · simp only [whereRangeDown, Bool.and_eq_false_iff, decide_eq_false_iff_not] at hx
    simp only [shiftRangeDown]
    rw [if_neg]
    simp only [Bool.and_eq_true, decide_eq_true_eq]
    rintro ⟨h1, h2⟩
    rcases hx with hx | hx <;> exact hx (by omega)

/-! ## Fresh rowids and well-formedness -/

theorem le_foldl_maxN (x : Nat) (xs : List Nat) : x ≤ xs.foldl max x := by
  induction xs generalizing x with
  | nil => simp
  | cons y ys ih => exact le_trans (le_max_left x y) (ih (max x y))

theorem mem_le_foldl_maxN (xs : List Nat) (y : Nat) (hy : y ∈ xs) :
    ∀ x, y ≤ xs.foldl max x := by
  induction xs with
  | nil => cases hy
  | cons z zs ih =>
      intro x
      rcases List.mem_cons.1 hy with h | h
      · subst h
        exact le_trans (le_max_right x y) (le_foldl_maxN (max x y) zs)
      · exact ih h (max x z)

theorem freshRowid_eq (db : DB) :
    db.freshRowid = ((db.entries.map (fun e => e.rowid)).foldl max 0) + 1 := by
  unfold DB.freshRowid
  rw [List.foldl_map]

theorem freshRowid_gt (db : DB) (e : EntryRow) (he : e ∈ db.entries) :
    e.rowid < db.freshRowid := by
  rw [freshRowid_eq]
  have := mem_le_foldl_maxN (db.entries.map (fun x => x.rowid)) e.rowid
    (List.mem_map.2 ⟨e, he, rfl⟩) 0
  omega

theorem nodup_append_fresh (db : DB) (x : EntryRow)
    (hnd : (db.entries.map (fun e => e.rowid)).Nodup)
    (hx : x.rowid = db.freshRowid) :
    ((db.entries ++ [x]).map (fun e => e.rowid)).Nodup := by
  rw [List.map_append]
  refine (List.nodup_append).2 ⟨hnd, by simp, ?_⟩
  intro a ha
  simp only [List.map_cons, List.map_nil, List.mem_singleton]
  intro hax
  rcases List.mem_map.1 ha with ⟨e, he, hae⟩
  have := freshRowid_gt db e he
  omega

theorem mem_insertByKey {α : Type} (key : α → Int) (x y : α) (l : List α) :
    y ∈ insertByKey key x l ↔ y = x ∨ y ∈ l := by
  induction l with
  | nil => simp [insertByKey]
  | cons z zs ih =>
      simp only [insertByKey]
      split_ifs <;> simp only [List.mem_cons, ih] <;> tauto

theorem mem_sortByKey {α : Type} (key : α → Int) (y : α) (l : List α) :
    y ∈ sortByKey key l ↔ y ∈ l := by
  induction l with
  | nil => simp [sortByKey]
  | cons z zs ih =>
      simp only [sortByKey, mem_insertByKey, ih, List.mem_cons]

theorem findStatusQ_spec (db : DB) (t : String) (sid : Nat) (st : StatusRow)
    (h : db.findStatusQ t sid = some st) : st ∈ db.statuses ∧ st.rowid = sid := by
  unfold DB.findStatusQ at h
  rcases hl : (db.statusQ t).filter (fun s => s.rowid == sid) with _ | ⟨x, xs⟩
  · rw [hl] at h; cases h
  · rw [hl] at h
    simp only [List.head?_cons, Option.some.injEq] at h
    have hx : x ∈ (db.statusQ t).filter (fun s => s.rowid == sid) := by
      rw [hl]; exact List.mem_cons_self x xs
    have hmem := List.mem_filter.1 hx
    rw [← h]
    exact ⟨(mem_sortByKey _ x db.statuses).1 hmem.1, by simpa using hmem.2⟩

theorem tableByName_spec (db : DB) (t : String) (tr : TableRef)
    (h : db.tableByName t = some tr) :
    ∃ l ∈ db.lists, l.rowid = tr.rowid ∧ l.name = t := by
  unfold DB.tableByName at h
  rcases hf : (sortByKey (fun l => l.position) db.lists).find?
      (fun l => l.name == t) with _ | l
  · rw [hf] at h; cases h
  · rw [hf] at h
    have h' : (⟨l.rowid, l.name⟩ : TableRef) = tr := by simpa using h
    have hmem := (mem_sortByKey _ l db.lists).1 (List.mem_of_find?_eq_some hf)
    have hname : l.name = t := by simpa using List.find?_some hf
    exact ⟨l, hmem, by rw [← h'], hname⟩

theorem tableByRowid_spec (db : DB) (r : Nat) (tr : TableRef)
    (h : db.tableByRowid r = some tr) :
    ∃ l ∈ db.lists, l.rowid = tr.rowid ∧ tr.rowid = r := by
  unfold DB.tableByRowid at h
  rcases hf : (sortByKey (fun l => l.position) db.lists).find?
      (fun l => l.rowid == r) with _ | l
  · rw [hf] at h; cases h
  · rw [hf] at h
    have h' : (⟨l.rowid, l.name⟩ : TableRef) = tr := by simpa using h
    have hmem := (mem_sortByKey _ l db.lists).1 (List.mem_of_find?_eq_some hf)
    have hr : l.rowid = r := by simpa using List.find?_some hf
    exact ⟨l, hmem, by rw [← h'], by rw [← h']; exact hr⟩

theorem mapPart_rowids (db : DB) (t s : Nat) (f : Option Int → Option Int) :
    (db.mapPart t s f).entries.map (fun e => e.rowid) =
      db.entries.map (fun e => e.rowid) := by
  unfold DB.mapPart
  simp only [List.map_map]
  apply List.map_congr_left
  intro e _
  by_cases h : inPart t s e <;> simp [Function.comp, h]

theorem freshRowid_mapPart (db : DB) (t s : Nat) (f : Option Int → Option Int) :
    (db.mapPart t s f).freshRowid = db.freshRowid := by
  rw [freshRowid_eq, freshRowid_eq, mapPart_rowids]

theorem WF_mapPart (db : DB) (t s : Nat) (f : Option Int → Option Int)
    (h : WF db) : WF (db.mapPart t s f) := by
  refine ⟨?_, h.2⟩
  rw [mapPart_rowids]
  exact h.1

theorem statuses_unique (db : DB) (hw : WF db) {S S' : StatusRow}
    (h1 : S ∈ db.statuses) (h2 : S' ∈ db.statuses) (h : S.rowid = S'.rowid) :
    S = S' :=
  List.inj_on_of_nodup_map hw.2 h1 h2 h

theorem calcPosition_snd (db : DB) (t s : Nat) (req : PosReq) :
    (db.calcPosition t s req).2 = maxPos (db.posList t s) := rfl

theorem calcPosition_bounds (db : DB) (t s : Nat) (req : PosReq)
    (h : 0 ≤ (db.calcPosition t s req).2) :
    1 ≤ (db.calcPosition t s req).1 ∧
      (db.calcPosition t s req).1 ≤ (db.calcPosition t s req).2 + 1 := by
  unfold DB.calcPosition at *
  simp only at *
  set v : Int := (match req with | PosReq.absent => pyMaxsize | PosReq.val n => n)
  have h1 : (1 : Int) ≤ max 1 v := le_max_left 1 v
  split_ifs with hle
  · exact ⟨h1, by omega⟩
  · exact ⟨by omega, le_refl _⟩

/-- The resolved position always keeps the requested value when that lies
inside `[1, max]`, and is `max + 1` otherwise. -/
theorem calcPosition_fst (db : DB) (t s : Nat) (req : PosReq) :
    (db.calcPosition t s req).1 =
      if max 1 (match req with | PosReq.absent => pyMaxsize | PosReq.val n => n) ≤
          maxPos (db.posList t s)
      then max 1 (match req with | PosReq.absent => pyMaxsize | PosReq.val n => n)
      else maxPos (db.posList t s) + 1 := rfl

/-- Split the entry table around a member with a unique rowid. -/
theorem entries_decomp (db : DB)
    (hnd : (db.entries.map (fun e => e.rowid)).Nodup) (e : EntryRow)
    (he : e ∈ db.entries) :
    ∃ E₁ E₂, db.entries = E₁ ++ e :: E₂ ∧
      (∀ x ∈ E₁, x.rowid ≠ e.rowid) ∧ (∀ x ∈ E₂, x.rowid ≠ e.rowid) := by
  obtain ⟨E₁, E₂, hsplit⟩ := List.append_of_mem he
  refine ⟨E₁, E₂, hsplit, ?_, ?_⟩ <;>
  · rw [hsplit, List.map_append, List.map_cons] at hnd
    have hmid := (List.nodup_middle.1 hnd).of_cons
    have hnotin := (List.nodup_cons.1 (List.nodup_middle.1 hnd)).1
    intro x hx hxe
    apply hnotin
    rw [← hxe]
    refine List.mem_append.2 ?_
    first
      | exact Or.inl (List.mem_map.2 ⟨x, hx, rfl⟩)
      | exact Or.inr (List.mem_map.2 ⟨x, hx, rfl⟩)

/-! ## Density preservation by the entry lifecycle -/

theorem posList_append_one (db : DB) (x : EntryRow) (t s : Nat) :
    ({ db with entries := db.entries ++ [x] } : DB).posList t s =
      db.posList t s ++ (if inPart t s x then [x.position] else []) := by
  unfold DB.posList
  rw [partEntries_append, List.map_append]
  congr 1
  rcases Bool.eq_false_or_eq_true (inPart t s x) with hx | hx <;>
    simp [List.filter, hx]

/-- Appending a row whose status is date-ordered (and whose position is
therefore NULL) cannot disturb any position-ordered partition. -/
theorem AllDense_append_null (db : DB) (hw : WF db) (hd : AllDense db)
    (x : EntryRow) (st : StatusRow) (hst : st ∈ db.statuses)
    (hxs : x.status = st.rowid) (hflag : st.orderByPosition = false) :
    AllDense ({ db with entries := db.entries ++ [x] }) := by
  intro S' hS' hflag' t'
  have hS'db : S' ∈ db.statuses := hS'
  rcases Bool.eq_false_or_eq_true (inPart t' S'.rowid x) with hc | hc
  · have hin := (inPart_iff _ _ _).1 hc
    have hSeq : S' = st := statuses_unique db hw hS'db hst (by rw [← hin.2, hxs])
    rw [hSeq] at hflag'
    rw [hflag'] at hflag
    cases hflag
  · rw [posList_append_one, hc]
    simpa using hd S' hS'db hflag' t'

theorem insert_preserves (db db' : DB) (f : InsertForm) (t : String)
    (hw : WF db) (hd : AllDense db) (h : db.insert f t = Except.ok db') :
    WF db' ∧ AllDense db' := by
  simp only [DB.insert] at h
  rcases hst : db.findStatusQ t f.status with _ | st
  · rw [hst] at h; cases h
  rw [hst] at h
  rcases htr : db.tableByName t with _ | tr
  · rw [htr] at h; cases h
  rw [htr] at h
  simp only [] at h
  have hstm := findStatusQ_spec db t f.status st hst
  by_cases hflag : st.orderByPosition = true
  · rw [if_pos hflag] at h
    have hdense : denseL (db.posList tr.rowid st.rowid) := hd st hstm.1 hflag tr.rowid
    have hmax : (db.calcPosition tr.rowid st.rowid f.position).2 =
        ((db.posList tr.rowid st.rowid).length : Int) := by
      rw [calcPosition_snd, maxPos_of_denseL hdense]
    have hb := calcPosition_bounds db tr.rowid st.rowid f.position
      (by rw [hmax]; exact Int.natCast_nonneg _)
    by_cases hpm : (db.calcPosition tr.rowid st.rowid f.position).1 ≤
        (db.calcPosition tr.rowid st.rowid f.position).2
    · rw [if_pos hpm] at h
      set p := (db.calcPosition tr.rowid st.rowid f.position).1 with hp
      rcases hinc : db.increment tr.rowid st.rowid p with e1 | db1
      · rw [hinc] at h
        cases h
      rw [hinc] at h
      simp only [] at h
      rw [insertEntry_ok_of_date_none] at h
      have hdb1 : db1 = db.mapPart tr.rowid st.rowid (shiftGe p) :=
        mapPartChecked_ok (whereGe_fix p) hinc
      have hent : db' = { db1 with entries := db1.entries ++
          [⟨db1.freshRowid, pyStrip f.name, some p, none, st.rowid, tr.rowid⟩] } :=
        (Except.ok.inj h).symm
      have hw1 : WF db1 := by
        rw [hdb1]
        exact WF_mapPart db tr.rowid st.rowid (shiftGe p) hw
      constructor
      · subst hent
        exact ⟨nodup_append_fresh db1 _ hw1.1 rfl, hw1.2⟩
      · intro S' hS' hflag' t'
        have hS'db : S' ∈ db.statuses := by
          rw [hent, hdb1] at hS'; exact hS'
        by_cases hc : t' = tr.rowid ∧ S'.rowid = st.rowid
        · -- the partition that received the insert
          have hSeq : S' = st := statuses_unique db hw hS'db hstm.1 (by rw [hc.2, hstm.2])
          have hpos : ({ db1 with entries := db1.entries ++
              [⟨db1.freshRowid, pyStrip f.name, some p, none, st.rowid, tr.rowid⟩] } : DB).posList t' S'.rowid =
              (db.posList tr.rowid st.rowid).map (shiftGe p) ++ [some p] := by
            rw [posList_append_one]
            rw [hc.1, hc.2]
            rw [hdb1]
            rw [posList_mapPart_same]
            congr 1
            simp [inPart]
          rw [hent, hpos]
          refine denseL_insert_shift hdense hb.1 ?_
          rw [← hmax]
          exact hpm
        · -- untouched partitions
          have hpos : ({ db1 with entries := db1.entries ++
              [⟨db1.freshRowid, pyStrip f.name, some p, none, st.rowid, tr.rowid⟩] } : DB).posList t' S'.rowid =
              db.posList t' S'.rowid := by
            rw [posList_append_one]
            have hout : inPart t' S'.rowid
                (⟨db1.freshRowid, pyStrip f.name, some p, none, st.rowid, tr.rowid⟩ : EntryRow) = false := by
              by_cases h1 : tr.rowid = t'
              · by_cases h2 : st.rowid = S'.rowid
                · exact absurd ⟨h1.symm, h2.symm⟩ hc
                · simp [inPart, h2]
              · simp [inPart, h1]
            rw [hout]
            rw [hdb1]
            rw [posList_mapPart_ne]
            · simp
            · by_cases h1 : tr.rowid = t'
              · right
                intro h2
                exact hc ⟨h1.symm, h2.symm⟩
              · left; exact h1
          rw [hent, hpos]
          exact hd S' hS'db hflag' t'
    · rw [if_neg hpm] at h
      simp only [] at h
      rw [insertEntry_ok_of_date_none] at h
      set p := (db.calcPosition tr.rowid st.rowid f.position).1 with hp
      have hent : db' = { db with entries := db.entries ++
          [⟨db.freshRowid, pyStrip f.name, some p, none, st.rowid, tr.rowid⟩] } :=
        (Except.ok.inj h).symm
      have hpN : p = ((db.posList tr.rowid st.rowid).length : Int) + 1 := by
        rw [← hmax]; omega
      constructor
      · subst hent
        exact ⟨nodup_append_fresh db _ hw.1 rfl, hw.2⟩
      · intro S' hS' hflag' t'
        have hS'db : S' ∈ db.statuses := by rw [hent] at hS'; exact hS'
        by_cases hc : t' = tr.rowid ∧ S'.rowid = st.rowid
        · have hpos : db'.posList t' S'.rowid =
              db.posList tr.rowid st.rowid ++ [some p] := by
            rw [hent, posList_append_one, hc.1, hc.2]
            congr 1
            simp [inPart]
          rw [hpos, hpN]
          exact denseL_append_end hdense
        · have hpos : db'.posList t' S'.rowid = db.posList t' S'.rowid := by
            rw [hent, posList_append_one]
            have hout : inPart t' S'.rowid
                (⟨db.freshRowid, pyStrip f.name, some p, none, st.rowid, tr.rowid⟩ : EntryRow) = false := by
              by_cases h1 : tr.rowid = t'
              · by_cases h2 : st.rowid = S'.rowid
                · exact absurd ⟨h1.symm, h2.symm⟩ hc
                · simp [inPart, h2]
              · simp [inPart, h1]
            rw [hout]
            simp
          rw [hpos]
          exact hd S' hS'db hflag' t'
  · rw [if_neg hflag] at h
    -- date-ordered path: position NULL, so only a flag-false partition grows
    have hflagF : st.orderByPosition = false := by
      rcases Bool.eq_false_or_eq_true st.orderByPosition with hh | hh
      · exact absurd hh hflag
      · exact hh
    rcases hdate : f.date with _ | _ | _ | s0 <;> rw [hdate] at h
    · cases h
    · cases h
    · simp only [] at h
      rw [insertEntry_ok_of_pos_none] at h
      have hent : db' = { db with entries := db.entries ++
          [⟨db.freshRowid, pyStrip f.name, none, none, st.rowid, tr.rowid⟩] } :=
        (Except.ok.inj h).symm
      subst hent
      exact ⟨⟨nodup_append_fresh db _ hw.1 rfl, hw.2⟩,
        AllDense_append_null db hw hd _ st hstm.1 rfl hflagF⟩
    · simp only [] at h
      rw [insertEntry_ok_of_pos_none] at h
      have hent : db' = { db with entries := db.entries ++
          [⟨db.freshRowid, pyStrip f.name, none, some s0, st.rowid, tr.rowid⟩] } :=
        (Except.ok.inj h).symm
      subst hent
      exact ⟨⟨nodup_append_fresh db _ hw.1 rfl, hw.2⟩,
        AllDense_append_null db hw hd _ st hstm.1 rfl hflagF⟩

theorem posList_filter_keep (db : DB) (r : Nat) (t s : Nat)
    (hno : ∀ x ∈ db.partEntries t s, x.rowid ≠ r) :
    (db.removeRow r).posList t s = db.posList t s := by
  unfold DB.removeRow DB.posList DB.partEntries at *
  simp only at *
  rw [List.filter_comm]
  congr 1
  refine List.filter_eq_self.2 ?_
  intro x hx
  simpa using hno x hx

/-- The combined effect of `delete`'s decrement-then-remove on the
victim's partition (gap closed) and on every other partition (no
change). -/
theorem delete_effect (db : DB) (hw : WF db) (e : EntryRow) (he : e ∈ db.entries) :
    ∃ l₁ l₂, db.posList e.list e.status = l₁ ++ e.position :: l₂ ∧
      ((db.decrement e.list e.status e.position).removeRow e.rowid).posList
          e.list e.status
        = l₁.map (shiftGt e.position) ++ l₂.map (shiftGt e.position) ∧
      ∀ t' s', ¬(t' = e.list ∧ s' = e.status) →
        ((db.decrement e.list e.status e.position).removeRow e.rowid).posList t' s'
          = db.posList t' s' := by
  obtain ⟨E₁, E₂, hdec, hne1, hne2⟩ := entries_decomp db hw.1 e he
  have hinP : inPart e.list e.status e = true := by simp [inPart]
  set P := inPart e.list e.status with hP
  set g := fun x => if inPart e.list e.status x then
    { x with position := shiftGt e.position x.position } else x with hg
  have hg_rowid : ∀ x, (g x).rowid = x.rowid := by
    intro x
    rw [hg]
    by_cases hx : inPart e.list e.status x <;> simp [hx]
  have hdbdec : (db.decrement e.list e.status e.position).entries = db.entries.map g := rfl
  -- the remove step commutes with the decrement map
  have hremove : (db.entries.map g).filter (fun x => x.rowid != e.rowid) =
      (db.entries.filter (fun x => x.rowid != e.rowid)).map g := by
    rw [List.filter_map]
    congr 1
    apply List.filter_congr
    intro x _
    simp [Function.comp, hg_rowid x]
  -- the removed-entry table, partitioned
  have hparts : ∀ t' s',
      ((db.decrement e.list e.status e.position).removeRow e.rowid).partEntries t' s' =
        ((db.entries.filter (fun x => x.rowid != e.rowid)).filter (inPart t' s')).map g := by
    intro t' s'
    unfold DB.removeRow DB.partEntries
    simp only
    rw [hdbdec, hremove, List.filter_map]
    congr 1
    apply List.filter_congr
    intro x _
    rw [hg]
    exact inPart_update_position e.list e.status t' s' (shiftGt e.position) x
  refine ⟨((E₁.filter P).map (fun x => x.position)),
    ((E₂.filter P).map (fun x => x.position)), ?_, ?_, ?_⟩
  · unfold DB.posList DB.partEntries
    rw [hdec, List.filter_append, List.filter_cons_of_pos hinP, List.map_append,
      List.map_cons]
  · unfold DB.posList
    rw [hparts]
    have hkeep : db.entries.filter (fun x => x.rowid != e.rowid) = E₁ ++ E₂ := by
      rw [hdec, List.filter_append, List.filter_cons_of_neg (by simp)]
      rw [List.filter_eq_self.2 (fun x hx => by simpa using hne1 x hx),
        List.filter_eq_self.2 (fun x hx => by simpa using hne2 x hx)]
    rw [hkeep, List.filter_append]
    simp only [List.map_append, List.map_map]
    congr 1 <;>
    · apply List.map_congr_left
      intro x hx
      have hxP : inPart e.list e.status x = true := (List.mem_filter.1 hx).2
      simp [Function.comp, hg, hxP]
  · intro t' s' hc
    unfold DB.posList
    rw [hparts]
    have hfilter : (db.entries.filter (fun x => x.rowid != e.rowid)).filter (inPart t' s')
        = db.entries.filter (inPart t' s') := by
      rw [List.filter_comm]
      refine List.filter_eq_self.2 ?_
      intro x hx
      have hxmem := List.mem_filter.1 hx
      have hxP := (inPart_iff t' s' x).1 hxmem.2
      simp only [bne_iff_ne, ne_eq, decide_eq_true_eq]
      intro hxe
      have hxeq : x = e := List.inj_on_of_nodup_map hw.1 hxmem.1 he hxe
      subst hxeq
      exact hc ⟨hxP.1.symm, hxP.2.symm⟩
    rw [hfilter]
    unfold DB.partEntries
    simp only [List.map_map]
    apply List.map_congr_left
    intro x hx
    have hxP := (inPart_iff t' s' x).1 (List.mem_filter.1 hx).2
    have hxout : inPart e.list e.status x = false := by
      by_cases h1 : x.list = e.list
      · by_cases h2 : x.status = e.status
        · exact absurd ⟨by rw [← hxP.1, h1], by rw [← hxP.2, h2]⟩ hc
        · simp [inPart, h2]
      · simp [inPart, h1]
    simp [Function.comp, hg, hxout]

theorem delete_preserves (db db' : DB) (f : DeleteForm)
    (hw : WF db) (hd : AllDense db) (h : db.delete f = Except.ok db') :
    WF db' ∧ AllDense db' := by
  simp only [DB.delete] at h
  rcases hfind : db.entries.find? (fun e => e.rowid == f.rowid) with _ | e
  · rw [hfind] at h; cases h
  rw [hfind] at h
  simp only [] at h
  rcases hl : db.lists.find? (fun l => l.rowid == e.list) with _ | lrow
  · rw [hl] at h; cases h
  rw [hl] at h
  rcases hs : db.statuses.find? (fun s => s.rowid == e.status) with _ | srow
  · rw [hs] at h; cases h
  rw [hs] at h
  simp only [] at h
  have he : e ∈ db.entries := List.mem_of_find?_eq_some hfind
  have her : e.rowid = f.rowid := by simpa using List.find?_some hfind
  by_cases hname : e.name == pyStrip f.name
  · rw [if_pos hname] at h
    have hent : db' = (db.decrement e.list e.status e.position).removeRow f.rowid :=
      (Except.ok.inj h).symm
    rw [← her] at hent
    obtain ⟨l₁, l₂, hsplit, hvictim, hother⟩ := delete_effect db hw e he
    constructor
    · subst hent
      refine ⟨?_, hw.2⟩
      have hsub : List.Sublist
          (((db.decrement e.list e.status e.position).removeRow
            e.rowid).entries.map (fun x => x.rowid))
          ((db.decrement e.list e.status e.position).entries.map (fun x => x.rowid)) :=
        (List.filter_sublist _).map _
      exact hsub.nodup
        (by rw [show (db.decrement e.list e.status e.position).entries.map
              (fun x => x.rowid) = db.entries.map (fun x => x.rowid) from
              mapPart_rowids db e.list e.status (shiftGt e.position)]
            exact hw.1)
    · intro S' hS' hflag' t'
      have hS'db : S' ∈ db.statuses := by rw [hent] at hS'; exact hS'
      by_cases hc : t' = e.list ∧ S'.rowid = e.status
      · have hdense : denseL (db.posList e.list e.status) := by
          have := hd S' hS'db hflag' t'
          rw [hc.1, hc.2] at this
          exact this
        rcases hep : e.position with _ | p
        · exfalso
          apply denseL_no_none hdense
          rw [hsplit, hep]
          simp
        · rw [hent, hc.1, hc.2, hvictim]
          rw [hsplit, hep] at hdense
          rw [hep]
          exact denseL_delete hdense
      · rw [hent, hother t' S'.rowid (by
          intro hcc
          exact hc ⟨hcc.1, hcc.2⟩)]
        exact hd S' hS'db hflag' t'
  · rw [if_neg hname] at h
    have hent : db' = db := (Except.ok.inj h).symm
    subst hent
    exact ⟨hw, hd⟩

theorem mapPart_id (db : DB) (t s : Nat) : db.mapPart t s (fun o => o) = db := by
  unfold DB.mapPart
  have h : db.entries.map
      (fun e => if inPart t s e then { e with position := e.position } else e) =
      db.entries := by
    have h2 : ∀ e ∈ db.entries,
        (if inPart t s e then { e with position := e.position } else e) = e := by
      intro e _
      split <;> rfl
    rw [List.map_congr_left h2]
    simp
  rw [h]

theorem setEntry_rowids (db : DB) (r : Nat) (n : Int) (nm : String)
    (dt : Option String) :
    (db.setEntry r n nm dt).entries.map (fun e => e.rowid) =
      db.entries.map (fun e => e.rowid) := by
  unfold DB.setEntry
  simp only [List.map_map]
  apply List.map_congr_left
  intro e _
  by_cases h : e.rowid == r <;> simp [Function.comp, h]

theorem WF_setEntry (db : DB) (r : Nat) (n : Int) (nm : String)
    (dt : Option String) (h : WF db) : WF (db.setEntry r n nm dt) := by
  refine ⟨?_, h.2⟩
  rw [setEntry_rowids]
  exact h.1

theorem inPart_setEntryFn (r : Nat) (n : Int) (nm : String) (dt : Option String)
    (t' s' : Nat) (e : EntryRow) :
    inPart t' s' (if e.rowid == r then
      { e with position := some n, name := nm, date := dt } else e) = inPart t' s' e := by
  by_cases h : e.rowid == r <;> simp [h, inPart]

theorem partEntries_setEntry (db : DB) (r : Nat) (n : Int) (nm : String)
    (dt : Option String) (t' s' : Nat) :
    (db.setEntry r n nm dt).partEntries t' s' =
      (db.partEntries t' s').map (fun e => if e.rowid == r then
        { e with position := some n, name := nm, date := dt } else e) := by
  unfold DB.setEntry DB.partEntries
  simp only
  rw [List.filter_map]
  congr 1
  apply List.filter_congr
  intro e _
  exact inPart_setEntryFn r n nm dt t' s' e

/-- `setEntry` on a row of one partition leaves every other partition's
positions untouched. -/
theorem posList_setEntry_ne (db : DB) (hw : WF db) (e : EntryRow)
    (he : e ∈ db.entries) (r : Nat) (hr : e.rowid = r) (n : Int)
    (nm : String) (dt : Option String)
    (t' s' : Nat) (hc : ¬(t' = e.list ∧ s' = e.status)) :
    (db.setEntry r n nm dt).posList t' s' = db.posList t' s' := by
  unfold DB.posList
  rw [partEntries_setEntry, List.map_map]
  apply List.map_congr_left
  intro x hx
  have hxmem := List.mem_filter.1 hx
  have hxP := (inPart_iff t' s' x).1 hxmem.2
  have hxr : (x.rowid == r) = false := by
    simp only [beq_eq_false_iff_ne, ne_eq]
    intro hxe
    have hxeq : x = e := List.inj_on_of_nodup_map hw.1 hxmem.1 he (by rw [hxe, hr])
    subst hxeq
    exact hc ⟨hxP.1.symm, hxP.2.symm⟩
  simp [Function.comp, hxr]

/-- Effect on the victim's partition of a partition-wide position shift
followed by rewriting the victim's own row: every other member's position
goes through `f`, the victim's becomes `some n`. -/
theorem shift_set_victim (db : DB) (hw : WF db) (e : EntryRow)
    (he : e ∈ db.entries) (f : Option Int → Option Int) (n : Int)
    (nm2 : String) (dt : Option String) :
    ∃ l₁ l₂, db.posList e.list e.status = l₁ ++ e.position :: l₂ ∧
      ((db.mapPart e.list e.status f).setEntry e.rowid n nm2 dt).posList
          e.list e.status
        = l₁.map f ++ some n :: l₂.map f := by
  obtain ⟨E₁, E₂, hdec, hne1, hne2⟩ := entries_decomp db hw.1 e he
  have hinP : inPart e.list e.status e = true := by simp [inPart]
  refine ⟨((E₁.filter (inPart e.list e.status)).map (fun x => x.position)),
    ((E₂.filter (inPart e.list e.status)).map (fun x => x.position)), ?_, ?_⟩
  · unfold DB.posList DB.partEntries
    rw [hdec, List.filter_append, List.filter_cons_of_pos hinP, List.map_append,
      List.map_cons]
  · unfold DB.posList
    rw [partEntries_setEntry, partEntries_mapPart]
    unfold DB.partEntries
    rw [hdec, List.filter_append, List.filter_cons_of_pos hinP]
    simp only [List.map_append, List.map_cons, List.map_map]
    congr 1
    · apply List.map_congr_left
      intro x hx
      have hxP : inPart e.list e.status x = true := (List.mem_filter.1 hx).2
      have hxr : (x.rowid == e.rowid) = false := by
        simp only [beq_eq_false_iff_ne, ne_eq]
        exact hne1 x (List.mem_of_mem_filter hx)
      simp [Function.comp, hxP, hxr]
    · congr 1
      · simp [Function.comp, hinP]
      · apply List.map_congr_left
        intro x hx
        have hxP : inPart e.list e.status x = true := (List.mem_filter.1 hx).2
        have hxr : (x.rowid == e.rowid) = false := by
          simp only [beq_eq_false_iff_ne, ne_eq]
          exact hne2 x (List.mem_of_mem_filter hx)
        simp [Function.comp, hxP, hxr]

/-- Rewriting only the victim's row (no shift). -/
theorem set_only_victim (db : DB) (hw : WF db) (e : EntryRow)
    (he : e ∈ db.entries) (n : Int) (nm2 : String) (dt : Option String) :
    ∃ l₁ l₂, db.posList e.list e.status = l₁ ++ e.position :: l₂ ∧
      (db.setEntry e.rowid n nm2 dt).posList e.list e.status
        = l₁ ++ some n :: l₂ := by
  obtain ⟨l₁, l₂, hsp, hres⟩ :=
    shift_set_victim db hw e he (fun x => x) n nm2 dt
  rw [mapPart_id] at hres
  refine ⟨l₁, l₂, hsp, ?_⟩
  simpa using hres

theorem posList_mem_of_entry (db : DB) (e : EntryRow) (he : e ∈ db.entries) :
    e.position ∈ db.posList e.list e.status := by
  unfold DB.posList DB.partEntries
  exact List.mem_map.2 ⟨e, List.mem_filter.2 ⟨he, by simp [inPart]⟩, rfl⟩

/-- Resolving an existing position of a dense partition returns it
unchanged. -/
theorem calc_of_dense_mem (db : DB) (T S : Nat)
    (hdense : denseL (db.posList T S)) (op : Int)
    (hmem : some op ∈ db.posList T S) :
    (db.calcPosition T S (PosReq.val op)).1 = op := by
  have hb := denseL_bounds hdense hmem
  have hmax := maxPos_of_denseL hdense
  unfold DB.calcPosition
  simp only
  rw [max_eq_right hb.1, if_pos (by rw [hmax]; exact hb.2)]

/-- The caller-supplied "old" fields of an `update` form are truthful for
the targeted entry: the entry exists, the page's list is the entry's
list, the supplied old status is the entry's status, and the supplied old
position is the entry's stored position.  Without this, `update`'s
same-partition reorder shifts a range computed from fabricated values and
breaks density (claim C1's counterexample). -/
def HonestUpd (db : DB) (f : UpdateForm) (t : String) : Prop :=
  ∃ e ∈ db.entries, e.rowid = f.rowid ∧
    (db.tableByName t).map (fun r => r.rowid) = some e.list ∧
    (db.findStatusQ t f.old_status).map (fun r => r.rowid) = some e.status ∧
    f.old_pos = e.position

theorem update_preserves (db db' : DB) (goto : String) (f : UpdateForm)
    (t : String) (hw : WF db) (hd : AllDense db) (hh : HonestUpd db f t)
    (h : db.update f t = Except.ok (goto, db')) : WF db' ∧ AllDense db' := by
  obtain ⟨e, he, her, hht, hhs, hhp⟩ := hh
  simp only [DB.update] at h
  rcases hot : db.tableByName t with _ | ot
  · rw [hot] at h; cases h
  rw [hot] at h
  rcases hnt : db.tableByRowid f.table with _ | nt
  · rw [hnt] at h; cases h
  rw [hnt] at h
  rcases hos : db.findStatusQ t f.old_status with _ | os
  · rw [hos] at h; cases h
  rw [hos] at h
  rcases hns : db.findStatusQ t f.status with _ | ns
  · rw [hns] at h; cases h
  rw [hns] at h
  simp only [] at h
  have hot_e : ot.rowid = e.list := by
    rw [hot] at hht; simpa using hht
  have hos_e : os.rowid = e.status := by
    rw [hos] at hhs; simpa using hhs
  by_cases hg : (ot == nt && os == ns && f.old_pos == f.pos &&
      f.old_date == f.date && pyStrip f.old_name == pyStrip f.name) = true
  · -- no-op guard
    rw [if_pos hg] at h
    have hdb : db' = db := (congrArg Prod.snd (Except.ok.inj h)).symm
    subst hdb
    exact ⟨hw, hd⟩
  rw [if_neg hg] at h
  by_cases hx : (ot != nt || os != ns) = true
  · -- cross-partition move: insert into the destination, then delete
    rw [if_pos hx] at h
    rcases hins : db.insert ⟨ns.rowid, pyStrip f.name, toReq f.pos,
        dateInOfOpt f.date⟩ nt.name with e1 | db1
    · rw [hins] at h; cases h
    rw [hins] at h
    simp only [] at h
    rcases hdel : db1.delete ⟨f.rowid, pyStrip f.old_name⟩ with e2 | db2
    · rw [hdel] at h; cases h
    rw [hdel] at h
    simp only [] at h
    have hdb : db' = db2 := (congrArg Prod.snd (Except.ok.inj h)).symm
    subst hdb
    obtain ⟨hw1, hd1⟩ := insert_preserves db db1 _ nt.name hw hd hins
    exact delete_preserves db1 db' _ hw1 hd1 hdel
  · -- same-partition reorder
    rw [if_neg hx] at h
    have hsame : ot = nt ∧ os = ns := by
      have hx' : (ot != nt || os != ns) = false := by
        rcases Bool.eq_false_or_eq_true (ot != nt || os != ns) with hh1 | hh1
        · exact absurd hh1 hx
        · exact hh1
      rw [Bool.or_eq_false_iff] at hx'
      exact ⟨by simpa using hx'.1, by simpa using hx'.2⟩
    have hS_e : ns.rowid = e.status := by rw [← hsame.2]; exact hos_e
    -- abbreviations for the resolved positions
    have hwm : ∀ fn, WF (db.mapPart ot.rowid ns.rowid fn) :=
      fun fn => WF_mapPart db ot.rowid ns.rowid fn hw
    -- frame lemma: everything in this branch only touches partition
    -- (e.list, e.status)
    have hframe : ∀ (fn : Option Int → Option Int) (n0 : Int) (t' s' : Nat),
        ¬(t' = e.list ∧ s' = e.status) →
        ((db.mapPart e.list e.status fn).setEntry e.rowid n0 (pyStrip f.name)
            f.date).posList t' s' = db.posList t' s' := by
      intro fn n0 t' s' hc
      have hwmp : WF (db.mapPart e.list e.status fn) :=
        WF_mapPart db e.list e.status fn hw
      have hmem : ({ e with position := fn e.position } : EntryRow) ∈
          (db.mapPart e.list e.status fn).entries := by
        unfold DB.mapPart
        simp only
        refine List.mem_map.2 ⟨e, he, ?_⟩
        rw [if_pos (by simp [inPart])]
      have hset := posList_setEntry_ne (db.mapPart e.list e.status fn) hwmp
        ({ e with position := fn e.position }) hmem e.rowid rfl n0
        (pyStrip f.name) f.date t' s' (by simpa using hc)
      rw [hset]
      exact posList_mapPart_ne db e.list e.status fn t' s'
        (by rcases not_and_or.1 hc with hcc | hcc
            · exact Or.inl (fun hh2 => hcc hh2.symm)
            · exact Or.inr (fun hh2 => hcc hh2.symm))
    set o := (db.calcPosition ot.rowid ns.rowid (toReq f.old_pos)).1 with hodef
    set nmp := db.calcPosition ot.rowid ns.rowid (toReq f.pos) with hnmdef
    set n := if nmp.1 > nmp.2 then nmp.2 else nmp.1 with hndef
    -- facts used by the dense cases
    have hdense_core : ∀ S' ∈ db.statuses, S'.orderByPosition = true →
        ∀ t', t' = e.list → S'.rowid = e.status →
        ∃ op : Int, e.position = some op ∧ o = op ∧
          denseL (db.posList e.list e.status) ∧
          1 ≤ n ∧ n ≤ ((db.posList e.list e.status).length : Int) := by
      intro S' hS' hflag' t' hct hcs
      have hdense : denseL (db.posList e.list e.status) := by
        have hdd := hd S' hS' hflag' e.list
        rw [hcs] at hdd
        exact hdd
      rcases hep : e.position with _ | op
      · exfalso
        exact denseL_no_none hdense (hep ▸ posList_mem_of_entry db e he)
      · have hmemop : some op ∈ db.posList e.list e.status :=
          hep ▸ posList_mem_of_entry db e he
        have hopb := denseL_bounds hdense hmemop
        have ho_eq : o = op := by
          rw [hodef, hot_e, hS_e, hhp, hep]
          exact calc_of_dense_mem db e.list e.status hdense op hmemop
        have hmax : maxPos (db.posList e.list e.status) =
            ((db.posList e.list e.status).length : Int) := maxPos_of_denseL hdense
        have hnm2 : nmp.2 = ((db.posList e.list e.status).length : Int) := by
          rw [hnmdef, calcPosition_snd, hot_e, hS_e, hmax]
        have hcb := calcPosition_bounds db ot.rowid ns.rowid (toReq f.pos)
          (by rw [← hnmdef, hnm2]; exact Int.natCast_nonneg _)
        rw [← hnmdef] at hcb
        refine ⟨op, rfl, ho_eq, hdense, ?_, ?_⟩
        · rw [hndef]
          split_ifs <;> omega
        · rw [hndef]
          split_ifs <;> omega
    rcases lt_trichotomy o n with holt | hoeq | hogt
    · -- the entry moves up in rank: o < n, decrement (o, n]
      rw [if_neg (show ¬(o > n) from by omega), if_pos holt] at h
      rcases hshift : db.decrementRange ot.rowid ns.rowid n o with e1 | db1
      · rw [hshift] at h
        cases h
      rw [hshift] at h
      simp only [] at h
      have hcond : ((o != n || pyStrip f.old_name != pyStrip f.name ||
          f.old_date != f.date) = true) := by
        have hne : o ≠ n := by omega
        simp [Bool.or_eq_true, bne_iff_ne, hne]
      rw [if_pos hcond] at h
      injection Except.ok.inj h with hg2 hdb2
      have hdb1 : db1 = db.mapPart e.list e.status (shiftRangeDown n o) := by
        rw [mapPartChecked_ok (whereRangeDown_fix n o) hshift, hot_e, hS_e]
      subst hdb2
      rw [hdb1, ← her]
      constructor
      · exact WF_setEntry _ _ _ _ _ (WF_mapPart db e.list e.status _ hw)
      · intro S' hS' hflag' t'
        have hS'db : S' ∈ db.statuses := hS'
        by_cases hc : t' = e.list ∧ S'.rowid = e.status
        · obtain ⟨op, hep, ho_eq, hdense, hn1, hn2⟩ :=
            hdense_core S' hS'db hflag' t' hc.1 hc.2
          obtain ⟨l₁, l₂, hsplit, hres⟩ :=
            shift_set_victim db hw e he (shiftRangeDown n o) n (pyStrip f.name) f.date
          rw [hc.1, hc.2, hres]
          rw [hep] at hsplit
          rw [hsplit] at hdense
          have hlen := congrArg List.length hsplit
          rw [ho_eq]
          refine denseL_reorder_down hdense (by omega) ?_
          rw [hsplit] at hn2
          exact hn2
        · rw [hframe (shiftRangeDown n o) n t' S'.rowid hc]
          exact hd S' hS'db hflag' t'
    · -- o = n: at most the row itself is rewritten
      rw [if_neg (show ¬(o > n) from by omega),
        if_neg (show ¬(o < n) from by omega)] at h
      simp only [] at h
      by_cases hcond : ((o != n || pyStrip f.old_name != pyStrip f.name ||
          f.old_date != f.date) = true)
      · rw [if_pos hcond] at h
        injection Except.ok.inj h with hg2 hdb2
        subst hdb2
        rw [← her]
        constructor
        · exact WF_setEntry _ _ _ _ _ hw
        · intro S' hS' hflag' t'
          have hS'db : S' ∈ db.statuses := hS'
          by_cases hc : t' = e.list ∧ S'.rowid = e.status
          · obtain ⟨op, hep, ho_eq, hdense, hn1, hn2⟩ :=
              hdense_core S' hS'db hflag' t' hc.1 hc.2
            obtain ⟨l₁, l₂, hsplit, hres⟩ :=
              set_only_victim db hw e he n (pyStrip f.name) f.date
            rw [hc.1, hc.2, hres]
            rw [hep] at hsplit
            rw [hsplit] at hdense
            have hno : some n = some op := by rw [← ho_eq, hoeq]
            rw [show n = op from by omega]
            exact hdense
          · rw [posList_setEntry_ne db hw e he e.rowid rfl n (pyStrip f.name)
              f.date t' S'.rowid hc]
            exact hd S' hS'db hflag' t'
      · rw [if_neg hcond] at h
        injection Except.ok.inj h with hg2 hdb2
        subst hdb2
        exact ⟨hw, hd⟩
    · -- the entry moves down in rank: o > n, increment [n, o)
      rw [if_pos hogt] at h
      rcases hshift : db.incrementRange ot.rowid ns.rowid n o with e1 | db1
      · rw [hshift] at h
        cases h
      rw [hshift] at h
      simp only [] at h
      have hcond : ((o != n || pyStrip f.old_name != pyStrip f.name ||
          f.old_date != f.date) = true) := by
        have hne : o ≠ n := by omega
        simp [Bool.or_eq_true, bne_iff_ne, hne]
      rw [if_pos hcond] at h
      injection Except.ok.inj h with hg2 hdb2
      have hdb1 : db1 = db.mapPart e.list e.status (shiftRangeUp n o) := by
        rw [mapPartChecked_ok (whereRangeUp_fix n o) hshift, hot_e, hS_e]
      subst hdb2
      rw [hdb1, ← her]
      constructor
      · exact WF_setEntry _ _ _ _ _ (WF_mapPart db e.list e.status _ hw)
      · intro S' hS' hflag' t'
        have hS'db : S' ∈ db.statuses := hS'
        by_cases hc : t' = e.list ∧ S'.rowid = e.status
        · obtain ⟨op, hep, ho_eq, hdense, hn1, hn2⟩ :=
            hdense_core S' hS'db hflag' t' hc.1 hc.2
          obtain ⟨l₁, l₂, hsplit, hres⟩ :=
            shift_set_victim db hw e he (shiftRangeUp n o) n (pyStrip f.name) f.date
          rw [hc.1, hc.2, hres]
          rw [hep] at hsplit
          rw [hsplit] at hdense
          rw [ho_eq]
          exact denseL_reorder_up hdense hn1 (by omega)
        · rw [hframe (shiftRangeUp n o) n t' S'.rowid hc]
          exact hd S' hS'db hflag' t'

/-! ## Operation sequences -/

/-- One caller-issued EntryLifecycle command. -/
inductive Op where
  | ins (form : InsertForm) (table : String)
  | upd (form : UpdateForm) (table : String)
  | del (form : DeleteForm)

/-- Run one command against the store. -/
def applyOp (db : DB) : Op → Except PyErr DB
  | Op.ins form table => db.insert form table
  | Op.upd form table => (db.update form table).map (fun r => r.2)
  | Op.del form => db.delete form

/-- Truthfulness of a command's caller-supplied old values: inserts carry
none, and delete re-reads the stored row itself; an update must describe
its target entry truthfully (`HonestUpd`). -/
def Honest (db : DB) : Op → Prop
  | Op.ins _ _ => True
  | Op.upd form table => HonestUpd db form table
  | Op.del _ => True

/-- A successful run of a sequence of honest commands. -/
inductive RunOk : DB → List Op → DB → Prop where
  | nil (db : DB) : RunOk db [] db
  | cons {db db1 db2 : DB} {op : Op} {ops : List Op} :
      Honest db op → applyOp db op = Except.ok db1 → RunOk db1 ops db2 →
      RunOk db (op :: ops) db2

theorem step_preserves (db db' : DB) (op : Op) (hw : WF db) (hd : AllDense db)
    (hh : Honest db op) (h : applyOp db op = Except.ok db') :
    WF db' ∧ AllDense db' := by
  cases op with
  | ins form table => exact insert_preserves db db' form table hw hd h
  | del form => exact delete_preserves db db' form hw hd h
  | upd form table =>
      simp only [applyOp] at h
      rcases hu : db.update form table with e1 | r
      · rw [hu] at h; cases h
      · rcases r with ⟨g1, d1⟩
        rw [hu] at h
        simp only [Except.map] at h
        have hdb : db' = d1 := (Except.ok.inj h).symm
        subst hdb
        exact update_preserves db db' g1 form table hw hd hh hu

theorem runOk_preserves (db db' : DB) (ops : List Op) (hrun : RunOk db ops db')
    (hw : WF db) (hd : AllDense db) : WF db' ∧ AllDense db' := by
  induction hrun with
  | nil db => exact ⟨hw, hd⟩
  | cons hh hstep _ ih =>
      obtain ⟨hw1, hd1⟩ := step_preserves _ _ _ hw hd hh hstep
      exact ih hw1 hd1

/-! ## Sortedness of the status query -/

theorem insertByKey_perm {α : Type} (key : α → Int) (x : α) (l : List α) :
    (insertByKey key x l).Perm (x :: l) := by
  induction l with
  | nil => exact List.Perm.refl _
  | cons y ys ih =>
      simp only [insertByKey]
      split_ifs
      · exact (ih.cons y).trans (List.Perm.swap x y ys)
      · exact List.Perm.refl _

theorem sortByKey_perm {α : Type} (key : α → Int) (l : List α) :
    (sortByKey key l).Perm l := by
  induction l with
  | nil => exact List.Perm.refl _
  | cons x xs ih =>
      simp only [sortByKey]
      exact (insertByKey_perm key x (sortByKey key xs)).trans (ih.cons x)

theorem insertByKey_sorted {α : Type} (key : α → Int) (x : α) (l : List α)
    (h : l.Pairwise (fun a b => key a ≤ key b)) :
    (insertByKey key x l).Pairwise (fun a b => key a ≤ key b) := by
  induction l with
  | nil => simp [insertByKey]
  | cons y ys ih =>
      simp only [insertByKey]
      rcases List.pairwise_cons.1 h with ⟨hy, hys⟩
      split_ifs with hk
      · refine List.pairwise_cons.2 ⟨?_, ih hys⟩
        intro z hz
        rcases (mem_insertByKey key x z ys).1 hz with hzx | hzy
        · rw [hzx]; exact hk
        · exact hy z hzy
      · refine List.pairwise_cons.2 ⟨?_, h⟩
        intro z hz
        rcases List.mem_cons.1 hz with hzy | hzys
        · rw [hzy]; omega
        · exact le_trans (by omega) (hy z hzys)

theorem sortByKey_sorted {α : Type} (key : α → Int) (l : List α) :
    (sortByKey key l).Pairwise (fun a b => key a ≤ key b) := by
  induction l with
  | nil => simp [sortByKey]
  | cons x xs ih => exact insertByKey_sorted key x (sortByKey key xs) ih

/-! ## Characterising the SQL MAX for arbitrary partitions -/

theorem maxPos_is_ub (l : List (Option Int)) :
    ∀ p ∈ l.filterMap id, p ≤ maxPos l := by
  intro p hp
  unfold maxPos
  rcases hfm : l.filterMap id with _ | ⟨x, xs⟩
  · rw [hfm] at hp; cases hp
  · rw [hfm] at hp
    simp only [sqlMax, Option.getD_some]
    rcases List.mem_cons.1 hp with hx | hx
    · rw [hx]; exact le_foldl_max x xs
    · exact mem_le_foldl_max xs p hx x

theorem maxPos_mem (l : List (Option Int)) (h : l.filterMap id ≠ []) :
    maxPos l ∈ l.filterMap id := by
  unfold maxPos
  rcases hfm : l.filterMap id with _ | ⟨x, xs⟩
  · exact absurd hfm h
  · simp only [sqlMax, Option.getD_some]
    rcases foldl_max_cases xs x with hc | hc
    · rw [hc]; exact List.mem_cons_self x xs
    · exact List.mem_cons_of_mem x hc

theorem maxPos_empty (l : List (Option Int)) (h : l.filterMap id = []) :
    maxPos l = 0 := by
  unfold maxPos
  rw [h]
  rfl

/-! ## Concrete dense lists for witnesses -/

theorem denseL_pair : denseL [some 1, some 2] := by
  constructor
  · rfl
  · intro k
    simp only [List.count_cons, List.count_nil, beq_iff_eq, Option.some.injEq,
      List.length_cons, List.length_nil]
    split_ifs <;> omega

theorem denseL_triple : denseL [some 1, some 2, some 3] := by
  constructor
  · rfl
  · intro k
    simp only [List.count_cons, List.count_nil, beq_iff_eq, Option.some.injEq,
      List.length_cons, List.length_nil]
    split_ifs <;> omega

/-! ## Claim C2: which statuses does `status(list)` return? -/

/-- Two lists with different ListStatus memberships: list A (rowid 1) is
linked only to status P (rowid 1), list B (rowid 2) only to status D
(rowid 2). -/
def c2db : DB :=
  ⟨[⟨1, "P", 2, true⟩, ⟨2, "D", 1, false⟩],
   [⟨1, "A", 1, true⟩, ⟨2, "B", 2, true⟩],
   [⟨1, 1, 1⟩, ⟨2, 2, 2⟩], []⟩

/-- Claim C2, counterexample: the claim says two lists with different
ListStatus memberships receive different status sets from `status(list)`.
Here lists "A" and "B" have disjoint ListStatus memberships, yet
`status` returns the identical full status sequence (both rowids 2 then
1) for both lists: the implementation never consults ListStatus or its
argument. -/
theorem c2_counterexample :
    DB.statusQ c2db "A" = DB.statusQ c2db "B" ∧
    c2db.listStatuses.filter (fun x => x.list == 1) ≠
      c2db.listStatuses.filter (fun x => x.list == 2) ∧
    (DB.statusQ c2db "A").map (fun s => s.rowid) = [2, 1] := by
  refine ⟨rfl, by decide, by decide⟩

/-- Claim C2, amended: `status(list)` ignores both its list argument and
the ListStatus junction; for every list it returns all Status rows,
sorted by display position — so every list receives the same status
sequence. -/
theorem c2_amended (db : DB) (t t' : String) :
    db.statusQ t = db.statusQ t' ∧
    (db.statusQ t).Perm db.statuses ∧
    (db.statusQ t).Pairwise (fun a b => a.position ≤ b.position) :=
  ⟨rfl, sortByKey_perm _ db.statuses, sortByKey_sorted _ db.statuses⟩

/-! ## Claim C3: insert into a date-ordered partition -/

/-- A store with a ranked "Planned" status and a date-ordered "Done"
status. -/
def c3db : DB :=
  ⟨[⟨1, "Planned", 1, true⟩, ⟨2, "Done", 2, false⟩],
   [⟨1, "books", 1, true⟩], [], []⟩

/-- Claim C3: inserting into an `orderByPosition = false` partition is
claimed to store position NULL and the supplied date, defaulting to
today when the date is blank.  The non-blank half is real (second
conjunct), but the blank-date branch executes
`datetime.now().strftime("%Y-%m-%d")` at database.py:465 and `datetime`
is never imported in database.py, so the code raises NameError instead
of defaulting (first conjunct) — a slip: the sibling module imports
`datetime` and uses the very same expression. -/
theorem c3_bug :
    c3db.insert ⟨2, "x", PosReq.absent, DateIn.empty⟩ "books" =
      Except.error PyErr.nameError ∧
    c3db.insert ⟨2, "x", PosReq.absent, DateIn.missing⟩ "books" =
      Except.error PyErr.nameError ∧
    c3db.insert ⟨2, "x", PosReq.absent, DateIn.val "2024-05-01"⟩ "books" =
      Except.ok { c3db with
        entries := [⟨1, "x", none, some "2024-05-01", 2, 1⟩] } := by
  refine ⟨rfl, rfl, rfl⟩

/-! ## Claim C7: the no-op guard -/

/-- Claim C7: when every caller-supplied old value equals its new
counterpart — the current list resolves to the same row as the requested
list, the old and new statuses resolve to the same row, and positions,
dates and (stripped) names coincide — `update_or_move` writes nothing,
returns the destination list's name, and leaves the store untouched. -/
theorem c7_noop (db : DB) (f : UpdateForm) (t : String) (ot nt : TableRef)
    (os ns : StatusRow)
    (hot : db.tableByName t = some ot) (hnt : db.tableByRowid f.table = some nt)
    (hos : db.findStatusQ t f.old_status = some os)
    (hns : db.findStatusQ t f.status = some ns)
    (h1 : ot = nt) (h2 : os = ns) (h3 : f.old_pos = f.pos)
    (h4 : f.old_date = f.date) (h5 : pyStrip f.old_name = pyStrip f.name) :
    db.update f t = Except.ok (nt.name, db) := by
  simp only [DB.update]
  rw [hot, hnt, hos, hns]
  simp only []
  rw [if_pos (by simp [h1, h2, h3, h4, h5])]

/-- Store used by the C7 and C8 witnesses. -/
def c7db : DB :=
  ⟨[⟨1, "Planned", 1, true⟩], [⟨1, "books", 1, true⟩], [],
   [⟨1, "a", some 1, none, 1, 1⟩, ⟨2, "b", some 2, none, 1, 1⟩]⟩

/-- Witness for C7 at a concrete no-op form. -/
theorem c7_noop_witness :
    c7db.update ⟨2, 1, 1, 1, some 2, some 2, "b", "b ", none, none⟩ "books" =
      Except.ok ("books", c7db) :=
  c7_noop c7db ⟨2, 1, 1, 1, some 2, some 2, "b", "b ", none, none⟩ "books"
    ⟨1, "books"⟩ ⟨1, "books"⟩ ⟨1, "Planned", 1, true⟩ ⟨1, "Planned", 1, true⟩
    (by decide) (by decide) (by decide) (by decide) rfl rfl rfl rfl (by decide)

/-! ## Claim C8: the delete name guard -/

/-- Claim C8: deleting an existing entry while supplying a name whose
stripped form differs from the stored name performs no write at all and
raises no error — the store is returned unchanged. -/
theorem c8_delete_guard (db : DB) (f : DeleteForm) (e : EntryRow)
    (hfind : db.entries.find? (fun x => x.rowid == f.rowid) = some e)
    (hl : (db.lists.find? (fun l => l.rowid == e.list)).isSome = true)
    (hs : (db.statuses.find? (fun s => s.rowid == e.status)).isSome = true)
    (hname : e.name ≠ pyStrip f.name) :
    db.delete f = Except.ok db := by
  simp only [DB.delete]
  rw [hfind]
  simp only []
  rcases hl' : db.lists.find? (fun l => l.rowid == e.list) with _ | lrow
  · rw [hl'] at hl; cases hl
  rcases hs' : db.statuses.find? (fun s => s.rowid == e.status) with _ | srow
  · rw [hs'] at hs; cases hs
  rw [hl', hs']
  simp only []
  rw [if_neg (by simp [hname])]

/-- Witness for C8 at a concrete mismatching delete. -/
theorem c8_delete_guard_witness :
    c7db.delete ⟨2, "zzz"⟩ = Except.ok c7db :=
  c8_delete_guard c7db ⟨2, "zzz"⟩ ⟨2, "b", some 2, none, 1, 1⟩
    (by decide) (by decide) (by decide) (by decide)

/-! ## Claim C10: export / import round trip -/

/-- A store whose single Status row has a display position (5) different
from its rowid (1). -/
def c10db : DB :=
  ⟨[⟨1, "Planned", 5, true⟩], [⟨1, "books", 1, true⟩],
   [⟨1, 1, 1⟩], [⟨1, "x", some 1, none, 1, 1⟩]⟩

/-- Claim C10: importing a snapshot produced by `download` is claimed to
restore the original contents of all four tables.  It does not:
`_upload_newstyle` builds each Status tuple as
`(s["rowid"], s["name"], s["rowid"], s["orderByPosition"])`
(database.py:220), writing the rowid into the `position` column, so any
Status whose saved position differs from its rowid comes back changed —
here position 5 becomes 1.  The other three tables do round-trip.  This
contradicts the evident intent of the paired download/upload functions
(every other column is copied from the saved field of the same name). -/
theorem c10_bug :
    c10db.upload (c10db.download) =
      some { c10db with statuses := [⟨1, "Planned", 1, true⟩] } ∧
    c10db.upload (c10db.download) ≠ some c10db ∧
    (uploadNewstyle (c10db.download)).lists = c10db.lists ∧
    (uploadNewstyle (c10db.download)).listStatuses = c10db.listStatuses ∧
    (uploadNewstyle (c10db.download)).entries = c10db.entries := by
  refine ⟨by decide, by decide, rfl, rfl, rfl⟩

/-! ## Claim C4: duplicate inserts -/

/-- A date-ordered store already holding the tuple
(NULL, "2020-01-01", "a", 2, 1). -/
def c4db : DB :=
  ⟨[⟨2, "Done", 1, false⟩], [⟨1, "books", 1, true⟩], [],
   [⟨1, "a", none, some "2020-01-01", 2, 1⟩]⟩

/-- The insert that reproduces the existing tuple exactly. -/
def c4form : InsertForm := ⟨2, "a", PosReq.absent, DateIn.val "2020-01-01"⟩

/-- Claim C4, counterexample: the claim says a duplicate-tuple insert
returns without error *and leaves the store unchanged*.  The error-free
half is real, but the store is not left unchanged: every row `insert`
writes has a NULL position (date-ordered path) or a NULL date (ranked
path), and sqlite's UNIQUE index treats NULLs as distinct, so the
constraint never fires and the duplicate is stored as a second identical
row.  Here the store grows from one row to two equal-tuple rows. -/
theorem c4_counterexample :
    c4db.insert c4form "books" =
      Except.ok { c4db with entries :=
        c4db.entries ++ [⟨2, "a", none, some "2020-01-01", 2, 1⟩] } ∧
    c4db.entries.map (fun e => (e.position, e.date, e.name, e.status, e.list)) =
      [(none, some "2020-01-01", "a", 2, 1)] ∧
    ({ c4db with entries :=
        c4db.entries ++ [⟨2, "a", none, some "2020-01-01", 2, 1⟩] } : DB) ≠ c4db := by
  refine ⟨rfl, rfl, by decide⟩

/-- Claim C4, amended: a duplicate submission is neither surfaced nor
absorbed — it is stored again.  Every row the date-ordered insert path
writes has a NULL position, and sqlite treats any NULL inside the
UNIQUE(position,date,name,status,list) index as distinct from
everything, so the INSERT's constraint never fires there: an insert
whose tuple duplicates an existing row (the store is arbitrary, so in
particular one holding that exact duplicate) completes normally, raises
no IntegrityError, and appends a second identical row — the store is
changed, not left unchanged.  (On the position-ordered path the inserted
row itself carries a NULL date and likewise cannot conflict; there only
the preparatory `_increment` UPDATE can raise IntegrityError, when the
partition already holds two rows sharing a name and a non-NULL date.) -/
theorem c4_amended (db : DB) (form : InsertForm) (table : String)
    (st : StatusRow) (tr : TableRef) (s : String)
    (hst : db.findStatusQ table form.status = some st)
    (htr : db.tableByName table = some tr)
    (hflag : st.orderByPosition = false)
    (hdate : form.date = DateIn.val s) :
    db.insert form table = Except.ok { db with entries := db.entries ++
      [⟨db.freshRowid, pyStrip form.name, none, some s, st.rowid, tr.rowid⟩] } ∧
    db.insert form table ≠ Except.error PyErr.integrityError ∧
    ({ db with entries := db.entries ++
      [⟨db.freshRowid, pyStrip form.name, none, some s, st.rowid, tr.rowid⟩] } : DB)
      ≠ db := by
  have h1 : db.insert form table = Except.ok { db with entries := db.entries ++
      [⟨db.freshRowid, pyStrip form.name, none, some s, st.rowid, tr.rowid⟩] } := by
    simp only [DB.insert]
    rw [hst, htr]
    simp only []
    rw [if_neg (by simp [hflag]), hdate]
    simp only []
    rw [insertEntry_ok_of_pos_none]
  refine ⟨h1, by rw [h1]; simp, ?_⟩
  intro hcc
  have hlen := congrArg (fun d => d.entries.length) hcc
  simp only [List.length_append, List.length_cons, List.length_nil] at hlen
  omega

/-- Witness for C4 at the concrete duplicate insert: `c4db` already
holds the tuple (NULL, "2020-01-01", "a", 2, 1) that `c4form`
resubmits. -/
theorem c4_amended_witness :
    c4db.insert c4form "books" = Except.ok { c4db with entries := c4db.entries ++
      [⟨c4db.freshRowid, pyStrip c4form.name, none, some "2020-01-01", 2, 1⟩] } ∧
    c4db.insert c4form "books" ≠ Except.error PyErr.integrityError ∧
    ({ c4db with entries := c4db.entries ++
      [⟨c4db.freshRowid, pyStrip c4form.name, none, some "2020-01-01", 2, 1⟩] } : DB)
      ≠ c4db :=
  c4_amended c4db c4form "books" ⟨2, "Done", 1, false⟩ ⟨1, "books"⟩ "2020-01-01"
    (by decide) (by decide) rfl rfl

/-! ## Claim C5: position resolution -/

/-- Claim C5: `_calc_position` returns `max_position` equal to the
highest existing position of the partition (0 when there is none), and
resolves the request as: a missing/blank/sentinel request appends at the
end (`max + 1`); a numeric request of at least 1 is kept when it lies
within the occupied range and otherwise becomes `max + 1`; a numeric
request below 1 is first clamped to 1 and then resolved the same way.
The sentinel case silently assumes, as the code does via `sys.maxsize`,
that the partition's maximum stays below 2^63 - 1. -/
theorem c5_resolve (db : DB) (t s : Nat) (req : PosReq)
    (hreal : maxPos (db.posList t s) < pyMaxsize) :
    (∀ p ∈ (db.posList t s).filterMap id,
      p ≤ (db.calcPosition t s req).2) ∧
    ((db.posList t s).filterMap id = [] → (db.calcPosition t s req).2 = 0) ∧
    ((db.posList t s).filterMap id ≠ [] →
      (db.calcPosition t s req).2 ∈ (db.posList t s).filterMap id) ∧
    (req = PosReq.absent →
      (db.calcPosition t s req).1 = (db.calcPosition t s req).2 + 1) ∧
    (∀ v : Int, req = PosReq.val v → 1 ≤ v →
      (db.calcPosition t s req).1 =
        if v ≤ (db.calcPosition t s req).2 then v
        else (db.calcPosition t s req).2 + 1) ∧
    (∀ v : Int, req = PosReq.val v → v < 1 →
      (db.calcPosition t s req).1 =
        if 1 ≤ (db.calcPosition t s req).2 then 1
        else (db.calcPosition t s req).2 + 1) := by
  refine ⟨maxPos_is_ub _, maxPos_empty _, maxPos_mem _, ?_, ?_, ?_⟩
  · intro hreq
    subst hreq
    show (if max 1 pyMaxsize ≤ maxPos (db.posList t s) then max 1 pyMaxsize
      else maxPos (db.posList t s) + 1) = maxPos (db.posList t s) + 1
    rw [max_eq_right (by unfold pyMaxsize; omega)]
    rw [if_neg (by omega)]
  · intro v hreq hv
    subst hreq
    show (if max 1 v ≤ maxPos (db.posList t s) then max 1 v
        else maxPos (db.posList t s) + 1) =
      if v ≤ maxPos (db.posList t s) then v else maxPos (db.posList t s) + 1
    rw [max_eq_right hv]
  · intro v hreq hv
    subst hreq
    show (if max 1 v ≤ maxPos (db.posList t s) then max 1 v
        else maxPos (db.posList t s) + 1) =
      if 1 ≤ maxPos (db.posList t s) then 1 else maxPos (db.posList t s) + 1
    rw [max_eq_left (by omega)]

/-- Witness for C5 on a three-entry partition with a blank request. -/
theorem c5_resolve_witness :
    maxPos (c7db.posList 1 1) < pyMaxsize ∧
    (c7db.calcPosition 1 1 PosReq.absent).1 =
      (c7db.calcPosition 1 1 PosReq.absent).2 + 1 ∧
    (c7db.calcPosition 1 1 PosReq.absent).2 = 2 :=
  ⟨by decide,
   (c5_resolve c7db 1 1 PosReq.absent (by decide)).2.2.2.1 rfl,
   by decide⟩

/-! ## Claim C9: legacy import -/

/-- Statuses as the legacy import expects them. -/
def c9db : DB :=
  ⟨[⟨1, "Planned", 1, true⟩, ⟨2, "Done", 2, false⟩, ⟨3, "Dropped", 3, true⟩],
   [⟨1, "books", 1, true⟩], [], []⟩

/-- The sign rule of `_upload_oldstyle`'s loop body, for a store whose
Status table does resolve the three names: a positive legacy position
maps to "Planned" keeping the position with date nulled, zero maps to
"Done" and negative to "Dropped", both with position nulled and the date
kept, and a duplicate-tuple conflict is skipped (store left as it was)
rather than surfaced.  On the real `upload` path those lookups never
succeed — see `c9_bug` below. -/
theorem c9_oldstyle (db : DB) (tid : Nat) (v : LegacyValue) (P D X : StatusRow)
    (hP : db.findStatusByName "Planned" = some P)
    (hD : db.findStatusByName "Done" = some D)
    (hX : db.findStatusByName "Dropped" = some X) :
    ∃ db', db.oldstyleValue tid v = Except.ok db' ∧
      ((db'.entries = db.entries ++
          [⟨db.freshRowid, v.name,
            (if 0 < v.position then some v.position else none),
            (if 0 < v.position then none else v.date),
            (if 0 < v.position then P.rowid
             else if v.position = 0 then D.rowid else X.rowid), tid⟩] ∧
        ¬ ∃ e0 ∈ db.entries, entryConflict e0
          ⟨db.freshRowid, v.name,
            (if 0 < v.position then some v.position else none),
            (if 0 < v.position then none else v.date),
            (if 0 < v.position then P.rowid
             else if v.position = 0 then D.rowid else X.rowid), tid⟩ = true) ∨
       (db'.entries = db.entries ∧
        ∃ e0 ∈ db.entries, entryConflict e0
          ⟨db.freshRowid, v.name,
            (if 0 < v.position then some v.position else none),
            (if 0 < v.position then none else v.date),
            (if 0 < v.position then P.rowid
             else if v.position = 0 then D.rowid else X.rowid), tid⟩ = true)) := by
  unfold DB.oldstyleValue
  by_cases hpos : 0 < v.position
  · rw [if_pos hpos, hP]
    simp only []
    refine ⟨_, rfl, ?_⟩
    unfold DB.insertEntrySkip DB.insertEntry
    simp only [if_pos hpos]
    by_cases hc : (db.entries.any fun e0 => entryConflict e0
        ⟨db.freshRowid, v.name, some v.position, none, P.rowid, tid⟩) = true
    · rw [if_pos hc]
      right
      exact ⟨rfl, by simpa using List.any_eq_true.1 hc⟩
    · rw [if_neg hc]
      left
      refine ⟨rfl, ?_⟩
      intro hex
      exact hc (List.any_eq_true.2 (by simpa using hex))
  · rw [if_neg hpos]
    by_cases hz : v.position = 0
    · rw [if_pos (by simpa using hz), hD]
      simp only []
      refine ⟨_, rfl, ?_⟩
      unfold DB.insertEntrySkip DB.insertEntry
      simp only [if_neg hpos, if_pos hz]
      by_cases hc : (db.entries.any fun e0 => entryConflict e0
          ⟨db.freshRowid, v.name, none, v.date, D.rowid, tid⟩) = true
      · rw [if_pos hc]
        right
        exact ⟨rfl, by simpa using List.any_eq_true.1 hc⟩
      · rw [if_neg hc]
        left
        refine ⟨rfl, ?_⟩
        intro hex
        exact hc (List.any_eq_true.2 (by simpa using hex))
    · rw [if_neg (by simpa using hz), hX]
      simp only []
      refine ⟨_, rfl, ?_⟩
      unfold DB.insertEntrySkip DB.insertEntry
      simp only [if_neg hpos, if_neg hz]
      by_cases hc : (db.entries.any fun e0 => entryConflict e0
          ⟨db.freshRowid, v.name, none, v.date, X.rowid, tid⟩) = true
      · rw [if_pos hc]
        right
        exact ⟨rfl, by simpa using List.any_eq_true.1 hc⟩
      · rw [if_neg hc]
        left
        refine ⟨rfl, ?_⟩
        intro hex
        exact hc (List.any_eq_true.2 (by simpa using hex))

/-- Witness for C9 on a positive-position legacy record. -/
theorem c9_oldstyle_witness :
    ∃ db', c9db.oldstyleValue 1 ⟨"x", 3, some "2020-01-01"⟩ = Except.ok db' ∧
      ((db'.entries = c9db.entries ++
          [⟨c9db.freshRowid, "x", some 3, none, 1, 1⟩] ∧
        ¬ ∃ e0 ∈ c9db.entries, entryConflict e0
          ⟨c9db.freshRowid, "x", some 3, none, 1, 1⟩ = true) ∨
       (db'.entries = c9db.entries ∧
        ∃ e0 ∈ c9db.entries, entryConflict e0
          ⟨c9db.freshRowid, "x", some 3, none, 1, 1⟩ = true)) :=
  c9_oldstyle c9db 1 ⟨"x", 3, some "2020-01-01"⟩
    ⟨1, "Planned", 1, true⟩ ⟨2, "Done", 2, false⟩ ⟨3, "Dropped", 3, true⟩
    (by decide) (by decide) (by decide)

theorem findStatusByName_empty (db : DB) (h : db.statuses = []) (n : String) :
    db.findStatusByName n = none := by
  unfold DB.findStatusByName
  rw [h]
  rfl

theorem oldstyleValue_no_statuses (db : DB) (h : db.statuses = []) (tid : Nat)
    (v : LegacyValue) : db.oldstyleValue tid v = Except.error PyErr.indexError := by
  unfold DB.oldstyleValue
  split_ifs <;> rw [findStatusByName_empty db h]

theorem oldstyleTable_empty_vals (db : DB) (h : db.statuses = []) (p : Int)
    (t : LegacyTable) (hv : t.values = []) :
    db.oldstyleTable p t = Except.ok
      { db with lists := db.lists ++ [⟨db.freshListRowid, t.table, p, true⟩] } := by
  unfold DB.oldstyleTable
  simp only []
  rw [show ({ db with lists := db.lists ++
      [⟨db.freshListRowid, t.table, p, true⟩] } : DB).statuses = db.statuses from rfl, h]
  simp only [List.foldl_nil]
  rw [hv]
  rfl

theorem oldstyleTable_no_statuses_err (db : DB) (h : db.statuses = []) (p : Int)
    (t : LegacyTable) (hv : t.values ≠ []) :
    db.oldstyleTable p t = Except.error PyErr.indexError := by
  unfold DB.oldstyleTable
  simp only []
  rw [show ({ db with lists := db.lists ++
      [⟨db.freshListRowid, t.table, p, true⟩] } : DB).statuses = db.statuses from rfl, h]
  simp only [List.foldl_nil]
  rcases hvs : t.values with _ | ⟨v, rest⟩
  · exact absurd hvs hv
  rw [List.foldlM_cons]
  have hval := oldstyleValue_no_statuses
    ⟨[], db.lists ++ [⟨db.freshListRowid, t.table, p, true⟩],
     db.listStatuses, db.entries⟩ rfl db.freshListRowid v
  rw [hval]
  rfl

theorem oldstyleFold_no_statuses (tables : List LegacyTable) :
    ∀ (p : Int) (db : DB), db.statuses = [] →
    (∃ t ∈ tables, t.table ≠ "_default" ∧ t.values ≠ []) →
    (tables.foldlM (fun (acc : Int × DB) t =>
        if t.table == "_default" then Except.ok acc
        else (DB.oldstyleTable acc.2 acc.1 t).map (fun d => (acc.1 + 1, d)))
      (p, db)) = (Except.error PyErr.indexError : Except PyErr (Int × DB)) := by
  induction tables with
  | nil =>
      rintro p db h ⟨t, ht, _⟩
      cases ht
  | cons t rest ih =>
      rintro p db h ⟨t0, ht0, hn0, hv0⟩
      rw [List.foldlM_cons]
      by_cases hdef : (t.table == "_default") = true
      · rw [if_pos hdef]
        have hex : ∃ t' ∈ rest, t'.table ≠ "_default" ∧ t'.values ≠ [] := by
          rcases List.mem_cons.1 ht0 with rfl | hmem
          · exact absurd (by simpa using hdef) hn0
          · exact ⟨t0, hmem, hn0, hv0⟩
        exact ih p db h hex
      · rw [if_neg hdef]
        rcases hvals : t.values with _ | ⟨v, vs⟩
        · rw [oldstyleTable_empty_vals db h p t hvals]
          have hex : ∃ t' ∈ rest, t'.table ≠ "_default" ∧ t'.values ≠ [] := by
            rcases List.mem_cons.1 ht0 with rfl | hmem
            · exact absurd hvals hv0
            · exact ⟨t0, hmem, hn0, hv0⟩
          exact ih (p + 1) _ h hex
        · rw [oldstyleTable_no_statuses_err db h p t (by rw [hvals]; simp)]
          rfl

/-- Claim C9, the code bug that stops every real legacy import: `upload`
drops and recreates the schema, `_init_database` leaves the Status table
empty (its seeding loop is commented out and nothing else inserts into
Status on this path), so for any legacy payload holding at least one
record the very first record's status lookup — `self._execute("SELECT
rowid FROM Status WHERE name = 'Planned'")` followed by `result[0]`
(database.py 188-204) — indexes into an empty list and raises
IndexError.  No status is ever assigned by the sign rule; the import
dies instead.  (`c9_oldstyle` above shows the sign rule the loop body
would apply if the named statuses existed.) -/
theorem c9_bug (tables : List LegacyTable)
    (h : ∃ t ∈ tables, t.table ≠ "_default" ∧ t.values ≠ []) :
    uploadLegacy tables = Except.error PyErr.indexError := by
  unfold uploadLegacy DB.uploadOldstyle
  rw [oldstyleFold_no_statuses tables 1 ⟨[], [], [], []⟩ rfl h]
  rfl

/-- Witness for C9: a one-table, one-record legacy payload dies with
IndexError. -/
theorem c9_bug_witness :
    uploadLegacy [⟨"books", [⟨"x", 3, some "2020-01-01"⟩]⟩] =
      Except.error PyErr.indexError :=
  c9_bug [⟨"books", [⟨"x", 3, some "2020-01-01"⟩]⟩]
    ⟨⟨"books", [⟨"x", 3, some "2020-01-01"⟩]⟩, by decide, by decide, by decide⟩

/-! ## Claim C1: density -/

/-- Dense three-entry partition for the C1 counterexample. -/
def c1db : DB :=
  ⟨[⟨1, "Planned", 1, true⟩], [⟨1, "books", 1, true⟩], [],
   [⟨1, "a", some 1, none, 1, 1⟩, ⟨2, "b", some 2, none, 1, 1⟩,
    ⟨3, "c", some 3, none, 1, 1⟩]⟩

/-- A dishonest update: entry 1 really sits at position 1, but the form
claims its old position is 3 while asking to move it to 1. -/
def c1form : UpdateForm := ⟨1, 1, 1, 1, some 3, some 1, "a", "a", none, none⟩

/-- Claim C1, counterexample: density is *not* preserved by arbitrary
`update_or_move` calls.  Starting from the dense partition {1,2,3}, one
update whose caller-supplied old position (3) does not match the entry's
stored position (1) leaves positions [1,3,3]: rank 2 has disappeared and
rank 3 is duplicated.  The claim as stated quantifies over all operation
sequences and is therefore false; truthful old values are required. -/
theorem c1_counterexample :
    denseL (c1db.posList 1 1) ∧
    (c1db.update c1form "books").map (fun r => r.2.posList 1 1) =
      Except.ok [some 1, some 3, some 3] ∧
    [some 1, some 3, some 3].count (some 2) = 0 ∧
    [some 1, some 3, some 3].count (some 3) = 2 ∧
    [some 1, some 3, some 3].length = 3 := by
  refine ⟨?_, rfl, by decide, by decide, rfl⟩
  have h : c1db.posList 1 1 = [some 1, some 2, some 3] := rfl
  rw [h]
  exact denseL_triple

/-- Claim C1, amended: starting from a well-formed store in which every
position-ordered partition is dense, any successful sequence of insert,
update_or_move and delete operations in which each update's
caller-supplied old values (list, status, position) truthfully describe
its target entry leaves every position-ordered partition dense: its
position multiset is exactly {1, …, N}. -/
theorem c1_density (db db' : DB) (ops : List Op) (hw : WF db)
    (hd : AllDense db) (hrun : RunOk db ops db') : AllDense db' :=
  (runOk_preserves db db' ops hrun hw hd).2

/-- Store and single honest insert used by the C1 witness. -/
def c1wdb : DB := ⟨[⟨1, "Planned", 1, true⟩], [⟨1, "books", 1, true⟩], [], []⟩

/-- Resulting store of the C1 witness run. -/
def c1wdb' : DB := ⟨[⟨1, "Planned", 1, true⟩], [⟨1, "books", 1, true⟩], [],
  [⟨1, "X", some 1, none, 1, 1⟩]⟩

/-- Witness for C1 on a one-step honest run. -/
theorem c1_density_witness : AllDense c1wdb' :=
  c1_density c1wdb c1wdb' [Op.ins ⟨1, "X", PosReq.absent, DateIn.missing⟩ "books"]
    ⟨by decide, by decide⟩
    (by
      intro S hS hflag t
      have h : c1wdb.posList t S.rowid = [] := rfl
      rw [h]
      exact denseL_nil)
    (RunOk.cons trivial rfl (RunOk.nil c1wdb'))

/-! ## Claim C6: the same-partition reorder -/

/-- Modelled from the spec's description of the same-partition reorder,
with the shift-range endpoints as the source applies them: in the
(T, S) partition, when the entry descends (`o > n`) every other entry
with a position in `[n, o)` moves up by one, and when it ascends
(`o < n`) every one with a position in `(o, n]` moves down by one; the
moved row itself is rewritten to position `n` with the new name and
date.  Every entry outside the partition is untouched. -/
def reorderSpecModel (db : DB) (T S : Nat) (r : Nat) (o n : Int)
    (nm : String) (dt : Option String) : DB :=
  { db with entries := db.entries.map (fun x =>
      if x.rowid == r then { x with position := some n, name := nm, date := dt }
      else if inPart T S x then
        { x with position :=
          match x.position with
          | some q =>
              if n ≤ q ∧ q < o then some (q + 1)
              else if o < q ∧ q ≤ n then some (q - 1)
              else some q
          | none => none }
      else x) }

theorem reorder_state_down (db : DB) (T S : Nat) (r : Nat) (o n : Int)
    (h : o < n) (nm : String) (dt : Option String) :
    (db.mapPart T S (shiftRangeDown n o)).setEntry r n nm dt =
      reorderSpecModel db T S r o n nm dt := by
  unfold DB.mapPart DB.setEntry reorderSpecModel
  simp only [List.map_map]
  congr 1
  apply List.map_congr_left
  intro x _
  by_cases hxP : inPart T S x = true
  · by_cases hxr : (x.rowid == r) = true
    · simp [Function.comp, hxP, hxr]
    · simp only [Function.comp_apply, hxP, if_true, hxr, if_false,
        Bool.false_eq_true]
      rcases hq : x.position with _ | q
      · simp [shiftRangeDown, hq, hxr]
      · simp only [shiftRangeDown, hq, hxr, if_false, Bool.false_eq_true]
        split_ifs <;> simp_all <;> omega
  · by_cases hxr : (x.rowid == r) = true
    · simp [Function.comp, hxP, hxr]
    · simp [Function.comp, hxP, hxr]

theorem reorder_state_up (db : DB) (T S : Nat) (r : Nat) (o n : Int)
    (h : n < o) (nm : String) (dt : Option String) :
    (db.mapPart T S (shiftRangeUp n o)).setEntry r n nm dt =
      reorderSpecModel db T S r o n nm dt := by
  unfold DB.mapPart DB.setEntry reorderSpecModel
  simp only [List.map_map]
  congr 1
  apply List.map_congr_left
  intro x _
  by_cases hxP : inPart T S x = true
  · by_cases hxr : (x.rowid == r) = true
    · simp [Function.comp, hxP, hxr]
    · simp only [Function.comp_apply, hxP, if_true, hxr, if_false,
        Bool.false_eq_true]
      rcases hq : x.position with _ | q
      · simp [shiftRangeUp, hq, hxr]
      · simp only [shiftRangeUp, hq, hxr, if_false, Bool.false_eq_true]
        split_ifs <;> simp_all <;> omega
  · by_cases hxr : (x.rowid == r) = true
    · simp [Function.comp, hxP, hxr]
    · simp [Function.comp, hxP, hxr]

/-- Two-entry dense partition for the C6 counterexample. -/
def c6db : DB :=
  ⟨[⟨1, "Planned", 1, true⟩], [⟨1, "books", 1, true⟩], [],
   [⟨1, "a", some 1, none, 1, 1⟩, ⟨2, "b", some 2, none, 1, 1⟩]⟩

/-- Move entry "a" from its (truthful) old position 1 to position 2. -/
def c6form : UpdateForm := ⟨1, 1, 1, 1, some 1, some 2, "a", "a", none, none⟩

/-- Claim C6, counterexample: moving the entry at old = 1 to new = 2, the
claim prescribes `shift_down_range(new, old)` with the definition
"decrement every entry with lo < position ≤ hi", i.e. the set
{p | 2 < p ≤ 1}, which is empty — so entry "b" (position 2) should be
untouched, and density (also asserted by the claim) would then be
violated with both entries at 2.  The code instead decrements the range
old < p ≤ new, moving "b" from 2 to 1 (second conjunct shows the stored
result: "a" at 2, "b" at 1). -/
theorem c6_counterexample :
    c6db.entries.map (fun e => e.position) = [some 1, some 2] ∧
    c6db.update c6form "books" = Except.ok ("books",
      { c6db with entries :=
        [⟨1, "a", some 2, none, 1, 1⟩, ⟨2, "b", some 1, none, 1, 1⟩] }) := by
  exact ⟨rfl, rfl⟩

/-- Claim C6, amended: for a same-partition reorder with truthful old
values and resolved positions `o ≠ n` (the new one capped at the
partition's current maximum), the operation shifts up the positions in
`[n, o)` when `o > n` and shifts down the positions in `(o, n]` when
`o < n` — i.e. `shift_down_range` runs with lo = old, hi = new, not with
the claim's literal (new, old) endpoints — then rewrites the moved row to
position `n`, and the partition is dense again afterwards.  The
partition's dates are assumed NULL (as `insert` leaves every
position-ordered row): otherwise two rows sharing a name and a non-NULL
date can make the range-shift UPDATE itself abort with
sqlite3.IntegrityError against the Entry UNIQUE constraint before the
moved row is rewritten. -/
theorem c6_reorder (db : DB) (f : UpdateForm) (t : String) (ot nt : TableRef)
    (os ns : StatusRow) (e : EntryRow) (o n : Int)
    (hw : WF db)
    (hot : db.tableByName t = some ot) (hnt : db.tableByRowid f.table = some nt)
    (hos : db.findStatusQ t f.old_status = some os)
    (hns : db.findStatusQ t f.status = some ns)
    (hsame1 : ot = nt) (hsame2 : os = ns)
    (he : e ∈ db.entries) (her : e.rowid = f.rowid)
    (hT : e.list = ot.rowid) (hS : e.status = ns.rowid)
    (hhp : f.old_pos = e.position)
    (hdense : denseL (db.posList ot.rowid ns.rowid))
    (hdN : ∀ x ∈ db.entries, inPart ot.rowid ns.rowid x = true → x.date = none)
    (ho : o = (db.calcPosition ot.rowid ns.rowid (toReq f.old_pos)).1)
    (hn : n = if (db.calcPosition ot.rowid ns.rowid (toReq f.pos)).1 >
        (db.calcPosition ot.rowid ns.rowid (toReq f.pos)).2 then
        (db.calcPosition ot.rowid ns.rowid (toReq f.pos)).2 else
        (db.calcPosition ot.rowid ns.rowid (toReq f.pos)).1)
    (hne : o ≠ n) :
    db.update f t = Except.ok (nt.name,
      reorderSpecModel db ot.rowid ns.rowid f.rowid o n (pyStrip f.name) f.date) ∧
    denseL ((reorderSpecModel db ot.rowid ns.rowid f.rowid o n (pyStrip f.name)
      f.date).posList ot.rowid ns.rowid) := by
  rcases hep : e.position with _ | op
  · exfalso
    apply denseL_no_none hdense
    have hm := posList_mem_of_entry db e he
    rw [hep, hT, hS] at hm
    exact hm
  have hmemop : some op ∈ db.posList ot.rowid ns.rowid := by
    have hm := posList_mem_of_entry db e he
    rw [hep, hT, hS] at hm
    exact hm
  have hopb := denseL_bounds hdense hmemop
  have hmax := maxPos_of_denseL hdense
  have hco : (db.calcPosition ot.rowid ns.rowid (PosReq.val op)).1 = op :=
    calc_of_dense_mem db ot.rowid ns.rowid hdense op hmemop
  have ho_eq : o = op := by
    rw [ho, hhp, hep]
    exact hco
  have hm2 : (db.calcPosition ot.rowid ns.rowid (toReq f.pos)).2 =
      ((db.posList ot.rowid ns.rowid).length : Int) := by
    rw [calcPosition_snd, hmax]
  have hcb := calcPosition_bounds db ot.rowid ns.rowid (toReq f.pos)
    (by rw [hm2]; exact Int.natCast_nonneg _)
  have hnb : 1 ≤ n ∧ n ≤ ((db.posList ot.rowid ns.rowid).length : Int) := by
    rw [hn]
    constructor <;> (split_ifs <;> omega)
  have hpp : f.old_pos ≠ f.pos := by
    intro hpp
    apply hne
    rw [ho, hn, ← hpp, hhp, hep]
    simp only [toReq]
    have h2 : (db.calcPosition ot.rowid ns.rowid (PosReq.val op)).2 =
        ((db.posList ot.rowid ns.rowid).length : Int) := by
      rw [calcPosition_snd, hmax]
    rw [hco, h2, if_neg (by omega)]
  have hguard : (ot == nt && os == ns && f.old_pos == f.pos &&
      f.old_date == f.date && pyStrip f.old_name == pyStrip f.name) = false := by
    have h3 : (f.old_pos == f.pos) = false := beq_eq_false_iff_ne.2 hpp
    simp [h3]
  have hcross : ¬((ot != nt || os != ns) = true) := by
    simp [hsame1, hsame2]
  have hokDown : db.decrementRange ot.rowid ns.rowid n o =
      Except.ok (db.mapPart ot.rowid ns.rowid (shiftRangeDown n o)) :=
    mapPartChecked_dates_none db ot.rowid ns.rowid _ _ (whereRangeDown_fix n o) hdN
  have hokUp : db.incrementRange ot.rowid ns.rowid n o =
      Except.ok (db.mapPart ot.rowid ns.rowid (shiftRangeUp n o)) :=
    mapPartChecked_dates_none db ot.rowid ns.rowid _ _ (whereRangeUp_fix n o) hdN
  have hcond : ((o != n || pyStrip f.old_name != pyStrip f.name ||
      f.old_date != f.date) = true) := by
    simp [Bool.or_eq_true, bne_iff_ne, hne]
  have hstate : db.update f t = Except.ok (nt.name,
      reorderSpecModel db ot.rowid ns.rowid f.rowid o n (pyStrip f.name) f.date) := by
    simp only [DB.update]
    rw [hot, hnt, hos, hns]
    simp only []
    rw [if_neg (by simp [hguard]), if_neg hcross, ← ho, ← hn]
    rcases lt_or_gt_of_ne hne with holt | hogt
    · rw [if_neg (by omega), if_pos holt, hokDown]
      simp only []
      rw [if_pos hcond, reorder_state_down db ot.rowid ns.rowid
        f.rowid o n holt (pyStrip f.name) f.date]
    · rw [if_pos hogt, hokUp]
      simp only []
      rw [if_pos hcond, reorder_state_up db ot.rowid ns.rowid
        f.rowid o n hogt (pyStrip f.name) f.date]
  refine ⟨hstate, ?_⟩
  rcases lt_or_gt_of_ne hne with holt | hogt
  · rw [← reorder_state_down db ot.rowid ns.rowid f.rowid o n holt
      (pyStrip f.name) f.date]
    rw [show ot.rowid = e.list from hT.symm, show ns.rowid = e.status from hS.symm,
      ← her]
    obtain ⟨l₁, l₂, hsplit, hres⟩ :=
      shift_set_victim db hw e he (shiftRangeDown n o) n (pyStrip f.name) f.date
    rw [hres]
    rw [hT, hS, hep] at hsplit
    rw [hsplit] at hdense
    rw [ho_eq]
    refine denseL_reorder_down hdense (by omega) ?_
    have hlen : (((l₁ ++ some op :: l₂).length : Nat) : Int) =
        ((db.posList ot.rowid ns.rowid).length : Int) := by
      rw [hsplit]
    omega
  · rw [← reorder_state_up db ot.rowid ns.rowid f.rowid o n hogt
      (pyStrip f.name) f.date]
    rw [show ot.rowid = e.list from hT.symm, show ns.rowid = e.status from hS.symm,
      ← her]
    obtain ⟨l₁, l₂, hsplit, hres⟩ :=
      shift_set_victim db hw e he (shiftRangeUp n o) n (pyStrip f.name) f.date
    rw [hres]
    rw [hT, hS, hep] at hsplit
    rw [hsplit] at hdense
    rw [ho_eq]
    exact denseL_reorder_up hdense hnb.1 (by omega)

/-- Witness for C6: the concrete reorder of `c6db`, moving "a" from 1 to
2. -/
theorem c6_reorder_witness :
    c6db.update c6form "books" = Except.ok ("books",
      reorderSpecModel c6db 1 1 1 1 2 (pyStrip "a") none) ∧
    denseL ((reorderSpecModel c6db 1 1 1 1 2 (pyStrip "a") none).posList 1 1) :=
  c6_reorder c6db c6form "books" ⟨1, "books"⟩ ⟨1, "books"⟩
    ⟨1, "Planned", 1, true⟩ ⟨1, "Planned", 1, true⟩
    ⟨1, "a", some 1, none, 1, 1⟩ 1 2
    ⟨by decide, by decide⟩ (by decide) (by decide) (by decide) (by decide)
    rfl rfl (by decide) rfl rfl rfl rfl
    (by
      have h : c6db.posList 1 1 = [some 1, some 2] := rfl
      rw [h]
      exact denseL_pair)
    (by decide) (by decide) (by decide) (by decide)

end PPF
